import Mathlib

/-!
Verification of the red-black-tree gap buffer (`pkg/buffer/rbtree.go`,
`pkg/buffer/gapbuffer.go` and the UTF-8 helper file).

The Go code is embedded shallowly:

* Go `string`s become `List Nat` (byte sequences), Go `int`s become `Int`.
* The pointer-based red-black tree becomes an inductive tree; the imperative
  fix-up loops that walk parent pointers become recursions over an explicit
  path (a list of frames, innermost frame first).  Rotations become the
  corresponding local restructurings.
* A Go execution that panics (nil-sentinel dereference) or diverges
  (a loop that provably makes no progress) is modelled as `Option.none`;
  loops whose iteration count is bounded by a value computed at entry carry
  that bound as explicit fuel.
-/

namespace GapBuf

inductive RBColor where
  | red
  | black
deriving DecidableEq, Repr

/-- Binary tree with colored nodes, integer keys and payloads of type `α`.
`nil` plays the role of the Go code's black sentinel leaf. -/
inductive RBTree (α : Type) where
  | nil
  | node (c : RBColor) (l : RBTree α) (k : Int) (v : α) (r : RBTree α)
deriving DecidableEq, Repr

namespace RBTree

variable {α : Type}

/-- Color of a tree root; the sentinel (`nil`) is black, as in the source. -/
def colorOf : RBTree α → RBColor
  | .nil => .black
  | .node c _ _ _ _ => c

/-- Go `x.Color = Black` (a no-op on the sentinel). -/
def blacken : RBTree α → RBTree α
  | .nil => .nil
  | .node _ l k v r => .node .black l k v r

/-- In-order traversal (`InOrderTraversal` collecting `(key, value)` pairs). -/
def inorder : RBTree α → List (Int × α)
  | .nil => []
  | .node _ l k v r => inorder l ++ (k, v) :: inorder r

/-- The key sequence produced by `InOrderTraversal`. -/
def keyList (t : RBTree α) : List Int := (inorder t).map (fun kv => kv.1)

/-- `searchTreeHelper`: standard BST descent, first node whose key matches. -/
def search : RBTree α → Int → Option (Int × α)
  | .nil, _ => none
  | .node _ l k v r, key =>
    if key = k then some (k, v)
    else if key < k then search l key
    else search r key

/-- Which child of its parent a node is. -/
inductive RBDir where
  | left
  | right
deriving DecidableEq, Repr

/-- One step of a path from the root down to a hole: the parent's color, key,
payload, the direction taken, and the sibling subtree left behind. -/
structure RBFrame (α : Type) where
  dir : RBDir
  c : RBColor
  k : Int
  v : α
  sib : RBTree α
deriving DecidableEq, Repr

/-- Rebuild one level: put `t` back into the slot described by frame `f`. -/
def plugFrame (t : RBTree α) (f : RBFrame α) : RBTree α :=
  match f.dir with
  | .left => .node f.c t f.k f.v f.sib
  | .right => .node f.c f.sib f.k f.v t

/-- Rebuild a whole tree from a subtree and its path (innermost frame first). -/
def plug : RBTree α → List (RBFrame α) → RBTree α
  | t, [] => t
  | t, f :: p => plug (plugFrame t f) p

/-- The descent loop of `Insert`: find the leaf position for `key`,
recording the path.  Equal keys descend to the right, as in the source. -/
def insDescend : RBTree α → Int → List (RBFrame α) → List (RBFrame α)
  | .nil, _, p => p
  | .node c l k v r, key, p =>
    if key < k then insDescend l key (⟨.left, c, k, v, r⟩ :: p)
    else insDescend r key (⟨.right, c, k, v, l⟩ :: p)

/-- `fixInsert`: the recolor/rotate loop.  `x` is the subtree rooted at the
current node `k` (always red on entry), the list is its path.  The Go code
dereferences the sentinel's nil child pointers when a red parent has no
grandparent, and rotates through a sentinel when the RL/LR case meets a
sentinel current node; both are modelled as `none`. -/
def fixIns : RBTree α → List (RBFrame α) → Option (RBTree α)
  | x, [] => some (blacken x)
  | x, pf :: rest =>
    if pf.c = .red then
      match rest with
      | [] => none
      | gf :: rest2 =>
        match gf.dir, gf.sib with
        | .right, .node .red ul uk uv ur =>
          fixIns (.node .red (.node .black ul uk uv ur) gf.k gf.v
            (plugFrame x { pf with c := .black })) rest2
        | .left, .node .red ul uk uv ur =>
          fixIns (.node .red (plugFrame x { pf with c := .black }) gf.k gf.v
            (.node .black ul uk uv ur)) rest2
        | .right, u =>
          match pf.dir with
          | .left =>
            match x with
            | .nil => none
            | .node _ xl xk xv xr =>
              some (blacken (plug (.node .black (.node .red u gf.k gf.v xl) xk xv
                (.node .red xr pf.k pf.v pf.sib)) rest2))
          | .right =>
            some (blacken (plug (.node .black (.node .red u gf.k gf.v pf.sib)
              pf.k pf.v x) rest2))
        | .left, u =>
          match pf.dir with
          | .right =>
            match x with
            | .nil => none
            | .node _ xl xk xv xr =>
              some (blacken (plug (.node .black (.node .red pf.sib pf.k pf.v xl) xk xv
                (.node .red xr gf.k gf.v u)) rest2))
          | .left =>
            some (blacken (plug (.node .black x pf.k pf.v
              (.node .red pf.sib gf.k gf.v u)) rest2))
    else some (blacken (plug x (pf :: rest)))

/-- `Insert`: BST-insert a red leaf (no uniqueness check), then fix up.
A new root is colored black; a node whose parent is the root is returned
without fix-up, exactly as the source's early returns do. -/
def insert (t : RBTree α) (key : Int) (v : α) : Option (RBTree α) :=
  let leaf : RBTree α := .node .red .nil key v .nil
  match insDescend t key [] with
  | [] => some (blacken leaf)
  | [f] => some (plug leaf [f])
  | p => fixIns leaf p

/-- Specification companion to `insert`'s descent: plain BST insertion of a
red leaf, duplicates to the right.  `insert` equals `bstIns` followed by the
inorder-preserving fix-up; the lemmas below relate the two. -/
def bstIns : RBTree α → Int → α → RBTree α
  | .nil, key, v => .node .red .nil key v .nil
  | .node c l k0 v0 r, key, v =>
    if key < k0 then .node c (bstIns l key v) k0 v0 r
    else .node c l k0 v0 (bstIns r key v)

/-- The search loop of `deleteNodeHelper`: find the first node with the key,
returning its components and path, or `none` when absent. -/
def findZ : RBTree α → Int → List (RBFrame α) →
    Option (RBColor × RBTree α × Int × α × RBTree α × List (RBFrame α))
  | .nil, _, _ => none
  | .node c l k v r, key, p =>
    if k = key then some (c, l, k, v, r, p)
    else if k < key then findZ r key (⟨.right, c, k, v, l⟩ :: p)
    else findZ l key (⟨.left, c, k, v, r⟩ :: p)

/-- `minimum`: descend left, recording the path; returns the leftmost node's
color, key, payload and right child. -/
def minPath : RBTree α → List (RBFrame α) →
    Option (RBColor × Int × α × RBTree α × List (RBFrame α))
  | .nil, _ => none
  | .node c .nil k v r, acc => some (c, k, v, r, acc)
  | .node c (.node lc ll lk lv lr) k v r, acc =>
    minPath (.node lc ll lk lv lr) (⟨.left, c, k, v, r⟩ :: acc)

/-- One terminal or recursive arm of `fixDelete` for `x` a left child, after
the red-sibling normalization: `pc`, `pk`, `pv` describe `x`'s parent, the
sibling is passed split into components, `rest` is the path above the parent. -/
def fixDelDispatchL (recur : RBTree α → List (RBFrame α) → Option (RBTree α))
    (x : RBTree α) (pc : RBColor) (pk : Int) (pv : α)
    (sl : RBTree α) (sk : Int) (sv : α) (sr : RBTree α)
    (rest : List (RBFrame α)) : Option (RBTree α) :=
  if colorOf sl = .black ∧ colorOf sr = .black then
    recur (.node pc x pk pv (.node .red sl sk sv sr)) rest
  else if colorOf sr = .black then
    match sl with
    | .nil => none
    | .node _ a lk lv b =>
      some (blacken (plug (.node pc (.node .black x pk pv a) lk lv
        (.node .black b sk sv sr)) rest))
  else
    some (blacken (plug (.node pc (.node .black x pk pv sl) sk sv
      (blacken sr)) rest))

/-- Mirror image of `fixDelDispatchL` for `x` a right child. -/
def fixDelDispatchR (recur : RBTree α → List (RBFrame α) → Option (RBTree α))
    (x : RBTree α) (pc : RBColor) (pk : Int) (pv : α)
    (sl : RBTree α) (sk : Int) (sv : α) (sr : RBTree α)
    (rest : List (RBFrame α)) : Option (RBTree α) :=
  if colorOf sr = .black ∧ colorOf sl = .black then
    recur (.node pc (.node .red sl sk sv sr) pk pv x) rest
  else if colorOf sl = .black then
    match sr with
    | .nil => none
    | .node _ c rk rv d =>
      some (blacken (plug (.node pc (.node .black sl sk sv c) rk rv
        (.node .black d pk pv x)) rest))
  else
    some (blacken (plug (.node pc (blacken sl) sk sv
      (.node .black sr pk pv x)) rest))

/-- `fixDelete`: the while loop, as a fuel recursion (the callers pass fuel
`2 * path.length + 2`, which bounds the iteration count of every terminating
Go execution; exhausted fuel models divergence).  A sentinel sibling makes the
Go code dereference the sentinel's nil children: `none`. -/
def fixDel : Nat → RBTree α → List (RBFrame α) → Option (RBTree α)
  | 0, _, _ => none
  | _ + 1, x, [] => some (blacken x)
  | fuel + 1, x, pf :: rest =>
    if colorOf x = .red then some (plug (blacken x) (pf :: rest))
    else
      match pf.dir with
      | .left =>
        match pf.sib with
        | .nil => none
        | .node .red sl sk sv sr =>
          match sl with
          | .nil => none
          | .node _ sl2 sk2 sv2 sr2 =>
            fixDelDispatchL (fixDel fuel) x .red pf.k pf.v sl2 sk2 sv2 sr2
              (⟨.left, .black, sk, sv, sr⟩ :: rest)
        | .node .black sl sk sv sr =>
          fixDelDispatchL (fixDel fuel) x pf.c pf.k pf.v sl sk sv sr rest
      | .right =>
        match pf.sib with
        | .nil => none
        | .node .red sl sk sv sr =>
          match sr with
          | .nil => none
          | .node _ sl2 sk2 sv2 sr2 =>
            fixDelDispatchR (fixDel fuel) x .red pf.k pf.v sl2 sk2 sv2 sr2
              (⟨.right, .black, sk, sv, sl⟩ :: rest)
        | .node .black sl sk sv sr =>
          fixDelDispatchR (fixDel fuel) x pf.c pf.k pf.v sl sk sv sr rest

/-- Fuel passed to `fixDel`; ample for every terminating run of the loop. -/
def fixDelFuel (p : List (RBFrame α)) : Nat := 2 * p.length + 2

/-- `Delete` / `deleteNodeHelper`: splice out the first node carrying `key`
(a silent no-op when absent) and restore the invariants. -/
def delete (t : RBTree α) (key : Int) : Option (RBTree α) :=
  match findZ t key [] with
  | none => some t
  | some (zc, zl, _zk, _zv, zr, p) =>
    match zl with
    | .nil =>
      if zc = .black then fixDel (fixDelFuel p) zr p else some (plug zr p)
    | .node lc ll lk lv lr =>
      match zr with
      | .nil =>
        let zln : RBTree α := .node lc ll lk lv lr
        if zc = .black then fixDel (fixDelFuel p) zln p else some (plug zln p)
      | .node rc rl rk rv rr =>
        match minPath (.node rc rl rk rv rr) [] with
        | none => none
        | some (yc, yk, yv, yr, q) =>
          let zln : RBTree α := .node lc ll lk lv lr
          let xpath := q ++ (⟨.right, zc, yk, yv, zln⟩ :: p)
          if yc = .black then fixDel (fixDelFuel xpath) yr xpath
          else some (plug yr xpath)

/-- The red-black validity predicate: `Balanced t c n` states that `t` is a
red-black tree with root color `c` and black-height `n`, no red node having
a red child and every root-to-leaf path crossing the same number of black
nodes. -/
inductive Balanced : RBTree α → RBColor → Nat → Prop where
  | nil : Balanced .nil .black 0
  | red {l : RBTree α} {k : Int} {v : α} {r : RBTree α} {n : Nat} :
      Balanced l .black n → Balanced r .black n →
      Balanced (.node .red l k v r) .red n
  | black {l : RBTree α} {k : Int} {v : α} {r : RBTree α} {n : Nat}
      {c1 c2 : RBColor} : Balanced l c1 n → Balanced r c2 n →
      Balanced (.node .black l k v r) .black (n + 1)

/-- Validity of a path as the context of a hole of black-height `n`; the
third index is the color of the innermost frame (black for the empty path,
matching the black sentinel).  A red frame's own parent frame is black and
its sibling is black-rooted, as red-black validity demands. -/
inductive CtxOk : List (RBFrame α) → Nat → RBColor → Prop where
  | nil {n : Nat} : CtxOk [] n .black
  | black {d : RBDir} {k : Int} {v : α} {sib : RBTree α}
      {p : List (RBFrame α)} {n : Nat} {cs cp : RBColor} :
      Balanced sib cs n → CtxOk p (n + 1) cp →
      CtxOk (⟨d, .black, k, v, sib⟩ :: p) n .black
  | red {d : RBDir} {k : Int} {v : α} {sib : RBTree α}
      {p : List (RBFrame α)} {n : Nat} :
      Balanced sib .black n → CtxOk p n .black →
      CtxOk (⟨d, .red, k, v, sib⟩ :: p) n .red

/-- A hole tree is compatible with its parent color when a red parent gets
a black-rooted subtree. -/
def Compat (cp ct : RBColor) : Prop := cp = .red → ct = .black

/-- The outermost frame of a path (the original root), when present, is
black. -/
def lastBlack (p : List (RBFrame α)) : Prop :=
  ∀ f, p.getLast? = some f → f.c = .black

/-- The delete fix-up's loop invariant for the current subtree: either an
honest red-black subtree of black-height `n`, or a red-rooted node whose
children are balanced at `n` (blackening its root restores balance at
`n + 1`). -/
inductive AlmostBal : RBTree α → Nat → Prop where
  | bal {t : RBTree α} {c : RBColor} {n : Nat} : Balanced t c n → AlmostBal t n
  | redv {l : RBTree α} {k : Int} {v : α} {r : RBTree α} {n : Nat}
      {c1 c2 : RBColor} : Balanced l c1 n → Balanced r c2 n →
      AlmostBal (.node .red l k v r) n

/-- Trees reachable from the empty tree by arbitrary sequences of the
source's `Insert` and `Delete`. -/
inductive RBReachable : RBTree α → Prop where
  | init : RBReachable .nil
  | ins {t : RBTree α} {k : Int} {v : α} {t2 : RBTree α} :
      RBReachable t → insert t k v = some t2 → RBReachable t2
  | del {t : RBTree α} {k : Int} {t2 : RBTree α} :
      RBReachable t → delete t k = some t2 → RBReachable t2

/-- In-order prefix contributed by a path (everything left of the hole). -/
def pathLeft : List (RBFrame α) → List (Int × α)
  | [] => []
  | f :: p =>
    match f.dir with
    | .left => pathLeft p
    | .right => pathLeft p ++ inorder f.sib ++ [(f.k, f.v)]

/-- In-order suffix contributed by a path (everything right of the hole). -/
def pathRight : List (RBFrame α) → List (Int × α)
  | [] => []
  | f :: p =>
    match f.dir with
    | .left => (f.k, f.v) :: inorder f.sib ++ pathRight p
    | .right => pathRight p

end RBTree

/-! UTF-8 helpers (`unicode.go` and the parts of Go's `unicode/utf8` package
the source relies on).  Bytes are `Nat`s; runes are `Nat`s (every rune the
code produces is a nonnegative code point). -/

/-- `utf8.RuneError` (U+FFFD). -/
def runeError : Nat := 0xFFFD

/-- `utf8.RuneStart`: a byte that is not a continuation byte. -/
def runeStart (b : Nat) : Bool := Nat.land b 0xC0 != 0x80

/-- `utf8.ValidRune` (for nonnegative code points). -/
def validRune (r : Nat) : Bool := r < 0xD800 || (0xDFFF < r && r ≤ 0x10FFFF)

/-- Accepted range for the second byte of a multi-byte sequence, by first
byte, as in Go's `utf8.acceptRanges`. -/
def accept1 (b0 : Nat) : Nat × Nat :=
  if b0 = 0xE0 then (0xA0, 0xBF)
  else if b0 = 0xED then (0x80, 0x9F)
  else if b0 = 0xF0 then (0x90, 0xBF)
  else if b0 = 0xF4 then (0x80, 0x8F)
  else (0x80, 0xBF)

/-- `utf8.DecodeRuneInString`: the first rune of `s` and its encoded size.
Invalid or truncated encodings give `(RuneError, 1)`; empty input gives
`(RuneError, 0)`. -/
def decodeRune (s : List Nat) : Nat × Nat :=
  match s with
  | [] => (runeError, 0)
  | b0 :: rest =>
    if b0 < 0x80 then (b0, 1)
    else if b0 < 0xC2 ∨ 0xF4 < b0 then (runeError, 1)
    else
      let lohi := accept1 b0
      match rest with
      | [] => (runeError, 1)
      | b1 :: rest1 =>
        if b1 < lohi.1 ∨ lohi.2 < b1 then (runeError, 1)
        else if b0 < 0xE0 then (Nat.land b0 0x1F * 64 + Nat.land b1 0x3F, 2)
        else
          match rest1 with
          | [] => (runeError, 1)
          | b2 :: rest2 =>
            if b2 < 0x80 ∨ 0xBF < b2 then (runeError, 1)
            else if b0 < 0xF0 then
              (Nat.land b0 0xF * 4096 + Nat.land b1 0x3F * 64 + Nat.land b2 0x3F, 3)
            else
              match rest2 with
              | [] => (runeError, 1)
              | b3 :: _ =>
                if b3 < 0x80 ∨ 0xBF < b3 then (runeError, 1)
                else
                  (Nat.land b0 0x7 * 262144 + Nat.land b1 0x3F * 4096 +
                    Nat.land b2 0x3F * 64 + Nat.land b3 0x3F, 4)

/-- The scan loop behind `utf8.Valid`, with fuel; one byte at least is
consumed per step, so fuel `s.length` never runs out. -/
def validN : Nat → List Nat → Bool
  | _, [] => true
  | 0, _ :: _ => false
  | fuel + 1, b :: s =>
    let rs := decodeRune (b :: s)
    if rs.1 = runeError ∧ rs.2 = 1 then false
    else validN fuel ((b :: s).drop rs.2)

/-- `utf8.Valid` / `ValidUTF8`. -/
def validUTF8 (s : List Nat) : Bool := validN s.length s

/-- Go's rune-to-bytes encoding, as performed by `string([]rune)`:
surrogates and out-of-range values encode as U+FFFD. -/
def encodeRune (r : Nat) : List Nat :=
  if (0xD800 ≤ r ∧ r ≤ 0xDFFF) ∨ 0x10FFFF < r then [0xEF, 0xBF, 0xBD]
  else if r < 0x80 then [r]
  else if r < 0x800 then [0xC0 + r / 64, 0x80 + r % 64]
  else if r < 0x10000 then [0xE0 + r / 4096, 0x80 + r / 64 % 64, 0x80 + r % 64]
  else [0xF0 + r / 262144, 0x80 + r / 4096 % 64, 0x80 + r / 64 % 64, 0x80 + r % 64]

/-- The repair loop of `EnsureValidUTF8`: drop lone invalid bytes, re-encode
every decoded rune.  Fuel `s.length` never runs out (progress is at least one
byte per step). -/
def ensureLoop : Nat → List Nat → List Nat
  | _, [] => []
  | 0, _ :: _ => []
  | fuel + 1, b :: s =>
    let rs := decodeRune (b :: s)
    if rs.1 = runeError ∧ rs.2 = 1 then ensureLoop fuel s
    else encodeRune rs.1 ++ ensureLoop fuel ((b :: s).drop rs.2)

/-- `EnsureValidUTF8`: valid strings pass through unchanged, otherwise the
repair loop runs. -/
def EnsureValidUTF8 (s : List Nat) : List Nat :=
  if validUTF8 s then s else ensureLoop s.length s

/-- The skip loop of `RuneIndex`, structural on the number of runes still to
be skipped: returns the final byte index, or `-1` when the string ends
before enough runes were seen. -/
def runeIndexGo : Nat → List Nat → Int → Int
  | 0, _, byteIndex => byteIndex
  | _ + 1, [], _ => -1
  | want + 1, b :: s, byteIndex =>
    let rs := decodeRune (b :: s)
    runeIndexGo want ((b :: s).drop rs.2) (byteIndex + rs.2)

/-- `RuneIndex`: byte offset of the rune with index `runeIndex`. -/
def RuneIndex (s : List Nat) (runeIndex : Int) : Int :=
  if runeIndex < 0 then -1
  else runeIndexGo runeIndex.toNat s 0

/-- The second loop of `RuneIndexRange`: advance at most `want` runes from
`byteIndex`, returning the final byte index (no failure on a short string). -/
def runeRangeGo : Nat → List Nat → Int → Int
  | 0, _, byteIndex => byteIndex
  | _ + 1, [], byteIndex => byteIndex
  | want + 1, b :: s, byteIndex =>
    let rs := decodeRune (b :: s)
    runeRangeGo want ((b :: s).drop rs.2) (byteIndex + rs.2)

/-- `RuneIndexRange`: byte range of the rune range `[runeStart, runeEnd)`. -/
def RuneIndexRange (s : List Nat) (runeStartIdx runeEndIdx : Int) : Int × Int :=
  if runeStartIdx < 0 ∨ runeEndIdx < runeStartIdx then (-1, -1)
  else
    let byteStart := RuneIndex s runeStartIdx
    if byteStart < 0 then (-1, -1)
    else if runeStartIdx = runeEndIdx then (byteStart, byteStart)
    else (byteStart,
      runeRangeGo (runeEndIdx - runeStartIdx).toNat (s.drop byteStart.toNat) byteStart)

/-- The counting loop of `utf8.RuneCountInString`, with fuel `s.length`
(never exhausted: at least one byte is consumed per rune). -/
def runeCountGo : Nat → List Nat → Nat
  | _, [] => 0
  | 0, _ :: _ => 0
  | fuel + 1, b :: s =>
    let rs := decodeRune (b :: s)
    1 + runeCountGo fuel ((b :: s).drop rs.2)

/-- `RuneCount`. -/
def RuneCount (s : List Nat) : Nat := runeCountGo s.length s

/-! The gap buffer (`gapbuffer.go`). -/

/-- A chunk of text: the byte sequence and the physical offset recorded at
creation time (`Chunk.Pos`). -/
structure Chunk where
  text : List Nat
  pos : Int
deriving DecidableEq, Repr

/-- `GapBuffer`. -/
structure GapBuffer where
  tree : RBTree Chunk
  gapStart : Int
  gapEnd : Int
  length : Int
  chunkSize : Int
deriving DecidableEq, Repr

def DEFAULT_CHUNK_SIZE : Int := 4096

def DEFAULT_GAP_SIZE : Int := 1048576

/-- `New`. -/
def New : GapBuffer :=
  { tree := .nil, gapStart := 0, gapEnd := DEFAULT_GAP_SIZE, length := 0,
    chunkSize := DEFAULT_CHUNK_SIZE }

/-- `NewWithChunkSize`: a non-positive argument falls back to the default. -/
def NewWithChunkSize (chunkSize : Int) : GapBuffer :=
  { tree := .nil, gapStart := 0, gapEnd := DEFAULT_GAP_SIZE, length := 0,
    chunkSize := if chunkSize ≤ 0 then DEFAULT_CHUNK_SIZE else chunkSize }

/-- `moveGap`: relocate the gap to `pos`, deleting and reinserting every
chunk node between the old and new gap position.  Collected nodes are looked
up again by key via `Search` (a failed lookup would make the Go code
dereference nil: `none`). -/
def moveGap (gb : GapBuffer) (pos : Int) : Option GapBuffer :=
  if pos = gb.gapStart then some gb
  else if pos < gb.gapStart then
    let ks := ((RBTree.inorder gb.tree).filter
      (fun kv => pos ≤ kv.1 ∧ kv.1 < gb.gapStart)).map (fun kv => kv.1)
    match ks.mapM (fun k => RBTree.search gb.tree k) with
    | none => none
    | some nodes =>
      let m : Int := nodes.length
      match (nodes.enum.reverse).foldlM
          (fun (tr : RBTree Chunk) (ikv : Nat × (Int × Chunk)) =>
            (RBTree.delete tr ikv.2.1).bind
              (fun t2 => RBTree.insert t2 (gb.gapEnd - m + (ikv.1 : Int)) ikv.2.2))
          gb.tree with
      | none => none
      | some t2 =>
        some { gb with
                 tree := t2,
                 gapEnd := pos + (gb.gapEnd - gb.gapStart),
                 gapStart := pos }
  else
    let ks := ((RBTree.inorder gb.tree).filter
      (fun kv => gb.gapEnd ≤ kv.1 ∧ kv.1 < gb.gapEnd + (pos - gb.gapStart))).map
      (fun kv => kv.1)
    match ks.mapM (fun k => RBTree.search gb.tree k) with
    | none => none
    | some nodes =>
      match nodes.enum.foldlM
          (fun (tr : RBTree Chunk) (ikv : Nat × (Int × Chunk)) =>
            (RBTree.delete tr ikv.2.1).bind
              (fun t2 => RBTree.insert t2 (gb.gapStart + (ikv.1 : Int)) ikv.2.2))
          gb.tree with
      | none => none
      | some t2 =>
        some { gb with
                 tree := t2,
                 gapStart := pos,
                 gapEnd := pos + (gb.gapEnd - gb.gapStart) }

/-- `expandGap`: grow the gap to `max (2 * current) minSize` capacity,
shifting every node at or after `gapEnd` up by the growth. -/
def expandGap (gb : GapBuffer) (minSize : Int) : Option GapBuffer :=
  if gb.gapEnd - gb.gapStart ≥ minSize then some gb
  else
    let newGapSize := if (gb.gapEnd - gb.gapStart) * 2 < minSize then minSize
      else (gb.gapEnd - gb.gapStart) * 2
    let expandBy := newGapSize - (gb.gapEnd - gb.gapStart)
    let ks := ((RBTree.inorder gb.tree).filter
      (fun kv => kv.1 ≥ gb.gapEnd)).map (fun kv => kv.1)
    match ks.mapM (fun k => RBTree.search gb.tree k) with
    | none => none
    | some nodes =>
      match nodes.foldlM
          (fun (tr : RBTree Chunk) (kv : Int × Chunk) =>
            (RBTree.delete tr kv.1).bind
              (fun t2 => RBTree.insert t2 (kv.1 + expandBy) kv.2))
          gb.tree with
      | none => none
      | some t2 =>
        some { gb with tree := t2, gapEnd := gb.gapEnd + expandBy }

/-- The backward trim of `InsertAt`'s chunking loop
(`for !utf8.RuneStart(text[end-1]) && end > i { end-- }`); the second
argument of the recursion is the current `end`.  `end = 0` makes the Go code
index `text[-1]`: `none`.  Fuel `end + 1` never runs out. -/
def insTrimEnd (text : List Nat) (i : Nat) : Nat → Nat → Option Nat
  | _, 0 => none
  | 0, _ + 1 => none
  | fuel + 1, e + 1 =>
    if runeStart (text.getD e 0) then some (e + 1)
    else if e + 1 > i then insTrimEnd text i fuel e
    else some (e + 1)

/-- The chunking loop of `InsertAt`: split `text` into pieces of at most
`chunkSize` bytes, trimmed back to a rune start, inserting each piece at the
advancing `gapStart`.  A piece that makes no progress loops forever in Go
(fuel exhaustion), and a trim result below `i` would make the Go slice
expression `text[i:end]` panic. -/
def insertChunks (chunkSize : Int) : Nat → List Nat → Nat → RBTree Chunk → Int →
    Option (RBTree Chunk × Int)
  | 0, text, i, tree, gs => if i < text.length then none else some (tree, gs)
  | fuel + 1, text, i, tree, gs =>
    if i < text.length then
      let end0 : Int := (i : Int) + chunkSize
      match (if end0 > (text.length : Int) then some text.length
             else insTrimEnd text i (end0.toNat + 1) end0.toNat) with
      | none => none
      | some endN =>
        if endN < i then none
        else
          let piece := (text.drop i).take (endN - i)
          match RBTree.insert tree gs ⟨piece, gs⟩ with
          | none => none
          | some tree2 =>
            insertChunks chunkSize fuel text endN tree2 (gs + ((endN : Int) - (i : Int)))
    else some (tree, gs)

/-- `InsertAt`. -/
def InsertAt (gb : GapBuffer) (pos : Int) (text : List Nat) :
    Option (Option String × GapBuffer) :=
  if pos < 0 ∨ pos > gb.length then some (some "position out of range", gb)
  else
    match (if pos ≠ gb.gapStart then moveGap gb pos else some gb) with
    | none => none
    | some gb1 =>
      match (if (text.length : Int) > gb1.gapEnd - gb1.gapStart
             then expandGap gb1 (text.length : Int) else some gb1) with
      | none => none
      | some gb2 =>
        match insertChunks gb2.chunkSize (text.length + 1) text 0 gb2.tree gb2.gapStart with
        | none => none
        | some (tree2, gs2) =>
          some (none, { gb2 with
                          tree := tree2,
                          gapStart := gs2,
                          length := gb2.length + (text.length : Int) })

/-- `DeleteAt`: move the gap to `pos`, drop every chunk node keyed in
`[gapEnd, gapEnd + count)`, then widen the gap and shrink the length. -/
def DeleteAt (gb : GapBuffer) (pos count : Int) :
    Option (Option String × GapBuffer) :=
  if pos < 0 ∨ pos + count > gb.length then
    some (some "position or count out of range", gb)
  else
    match (if pos ≠ gb.gapStart then moveGap gb pos else some gb) with
    | none => none
    | some gb1 =>
      let ks := ((RBTree.inorder gb1.tree).filter
        (fun kv => kv.1 ≥ gb1.gapEnd ∧ kv.1 < gb1.gapEnd + count)).map (fun kv => kv.1)
      match ks.foldlM (fun tr k => RBTree.delete tr k) gb1.tree with
      | none => none
      | some t2 =>
        some (none, { gb1 with
                        tree := t2,
                        gapEnd := gb1.gapEnd + count,
                        length := gb1.length - count })

/-- `GetText`: concatenate, in key order, the text of every chunk keyed
outside `[gapStart, gapEnd)`, then repair to valid UTF-8. -/
def GetText (gb : GapBuffer) : List Nat :=
  EnsureValidUTF8 ((RBTree.inorder gb.tree).foldl
    (fun acc kv =>
      if kv.1 < gb.gapStart ∨ kv.1 ≥ gb.gapEnd then acc ++ kv.2.text else acc) [])

/-- `Replace`: delete the range, then insert the new text. -/
def Replace (gb : GapBuffer) (startPos endPos : Int) (text : List Nat) :
    Option (Option String × GapBuffer) :=
  if startPos < 0 ∨ endPos > gb.length ∨ startPos > endPos then
    some (some "invalid range", gb)
  else
    match DeleteAt gb startPos (endPos - startPos) with
    | none => none
    | some (some err, gb1) => some (some err, gb1)
    | some (none, gb1) => InsertAt gb1 startPos text

/-- The inner scan of `GetTextRange`'s end trim: the candidate rune length at
`tmpEnd`, looking back at most three bytes for a rune start. -/
def runeLenScan (text : List Nat) (cs tmpEnd : Int) : Int :=
  if tmpEnd - 1 < cs then 1
  else if runeStart (text.getD (tmpEnd - 1).toNat 0) then 1
  else if tmpEnd - 2 < cs then 1
  else if runeStart (text.getD (tmpEnd - 2).toNat 0) then 2
  else if tmpEnd - 3 < cs then 1
  else if runeStart (text.getD (tmpEnd - 3).toNat 0) then 3
  else 1

/-- The per-byte validity scan of `GetTextRange`'s end trim
(`utf8.ValidRune(rune(chunkText[...]))` over the candidate rune's bytes). -/
def validScanGo (text : List Nat) (tmpEnd runeLen : Int) : Bool :=
  (List.range runeLen.toNat).all
    (fun i => validRune (text.getD (tmpEnd - runeLen + (i : Int)).toNat 0))

/-- `GetTextRange`'s forward start trim: advance `chunkStart` to a rune
start.  Fuel `(ce - cs).toNat` is exactly the worst-case iteration count. -/
def trimRangeStart (text : List Nat) (ce : Int) : Nat → Int → Int
  | 0, cs => cs
  | fuel + 1, cs =>
    if cs < ce ∧ ¬ runeStart (text.getD cs.toNat 0) then
      trimRangeStart text ce fuel (cs + 1)
    else cs

/-- `GetTextRange`'s backward end trim (`tmpEnd` loop). -/
def trimRangeEnd (text : List Nat) (cs : Int) : Nat → Int → Int
  | 0, tmpEnd => tmpEnd
  | fuel + 1, tmpEnd =>
    if tmpEnd > cs then
      let rl := runeLenScan text cs tmpEnd
      if tmpEnd - rl ≥ cs ∧ validScanGo text tmpEnd rl then tmpEnd
      else trimRangeEnd text cs fuel (tmpEnd - 1)
    else tmpEnd

/-- The traversal body of `GetTextRange`: the bytes a chunk at `key`
contributes to the requested logical range. -/
def rangeChunkPiece (gb : GapBuffer) (startPos endPos : Int)
    (key : Int) (ch : Chunk) : List Nat :=
  let chunkText := ch.text
  let chunkLen : Int := chunkText.length
  if gb.gapStart ≤ key ∧ key < gb.gapEnd then []
  else
    let adjustedKey := if key ≥ gb.gapEnd then key - (gb.gapEnd - gb.gapStart) else key
    if adjustedKey + chunkLen ≤ startPos ∨ adjustedKey ≥ endPos then []
    else
      let cs0 : Int := if adjustedKey < startPos then startPos - adjustedKey else 0
      let ce0 : Int := if adjustedKey + chunkLen > endPos then endPos - adjustedKey else chunkLen
      if cs0 < ce0 then
        let cs1 := trimRangeStart chunkText ce0 (ce0 - cs0).toNat cs0
        let ce1 := trimRangeEnd chunkText cs1 (ce0 - cs1).toNat ce0
        if cs1 < ce1 then (chunkText.drop cs1.toNat).take (ce1 - cs1).toNat else []
      else []

/-- `GetTextRange` (the computed-then-unused physical offsets of the source
are omitted; they do not influence the result). -/
def GetTextRange (gb : GapBuffer) (startPos endPos : Int) :
    Except String (List Nat) :=
  if startPos < 0 ∨ endPos > gb.length ∨ startPos > endPos then
    .error "invalid range"
  else .ok (EnsureValidUTF8 ((RBTree.inorder gb.tree).foldl
    (fun acc kv => acc ++ rangeChunkPiece gb startPos endPos kv.1 kv.2) []))

/-- `InsertRuneAt`. -/
def InsertRuneAt (gb : GapBuffer) (runePos : Int) (text : List Nat) :
    Option (Option String × GapBuffer) :=
  if RuneIndex (GetText gb) runePos < 0 then
    some (some "rune position out of range", gb)
  else InsertAt gb (RuneIndex (GetText gb) runePos) text

/-- `DeleteRuneAt`. -/
def DeleteRuneAt (gb : GapBuffer) (runePos runeCnt : Int) :
    Option (Option String × GapBuffer) :=
  if runeCnt ≤ 0 then some (some "rune count must be positive", gb)
  else if runePos < 0 ∨ runePos ≥ (RuneCount (GetText gb) : Int) then
    some (some "rune position out of range", gb)
  else if (RuneIndexRange (GetText gb) runePos (runePos + runeCnt)).1 < 0 ∨
      (RuneIndexRange (GetText gb) runePos (runePos + runeCnt)).2 < 0 then
    some (some "invalid rune range", gb)
  else
    DeleteAt gb (RuneIndexRange (GetText gb) runePos (runePos + runeCnt)).1
      ((RuneIndexRange (GetText gb) runePos (runePos + runeCnt)).2 -
        (RuneIndexRange (GetText gb) runePos (runePos + runeCnt)).1)

/-- The clamped end index the rune-range operations use
(`if runeEnd > runeCount { runeEnd = runeCount }`). -/
def runeEndClamp (gb : GapBuffer) (runeEndIdx : Int) : Int :=
  if runeEndIdx > (RuneCount (GetText gb) : Int) then (RuneCount (GetText gb) : Int)
  else runeEndIdx

/-- `GetRuneTextRange`. -/
def GetRuneTextRange (gb : GapBuffer) (runeStartIdx runeEndIdx : Int) :
    Except String (List Nat) :=
  if runeStartIdx < 0 ∨ runeStartIdx > runeEndIdx then .error "invalid rune range"
  else if (RuneIndexRange (GetText gb) runeStartIdx (runeEndClamp gb runeEndIdx)).1 < 0 ∨
      (RuneIndexRange (GetText gb) runeStartIdx (runeEndClamp gb runeEndIdx)).2 < 0 then
    .error "invalid rune range"
  else
    GetTextRange gb
      (RuneIndexRange (GetText gb) runeStartIdx (runeEndClamp gb runeEndIdx)).1
      (RuneIndexRange (GetText gb) runeStartIdx (runeEndClamp gb runeEndIdx)).2

/-- `ReplaceRune`. -/
def ReplaceRune (gb : GapBuffer) (runeStartIdx runeEndIdx : Int) (text : List Nat) :
    Option (Option String × GapBuffer) :=
  if runeStartIdx < 0 ∨ runeStartIdx > runeEndIdx then
    some (some "invalid rune range", gb)
  else if (RuneIndexRange (GetText gb) runeStartIdx (runeEndClamp gb runeEndIdx)).1 < 0 ∨
      (RuneIndexRange (GetText gb) runeStartIdx (runeEndClamp gb runeEndIdx)).2 < 0 then
    some (some "invalid rune range", gb)
  else
    Replace gb
      (RuneIndexRange (GetText gb) runeStartIdx (runeEndClamp gb runeEndIdx)).1
      (RuneIndexRange (GetText gb) runeStartIdx (runeEndClamp gb runeEndIdx)).2 text

/-- `Length`. -/
def Length (gb : GapBuffer) : Int := gb.length

/-- `RuneLength`. -/
def RuneLength (gb : GapBuffer) : Nat := RuneCount (GetText gb)

/-- `GapLength`. -/
def GapLength (gb : GapBuffer) : Int := gb.gapEnd - gb.gapStart

/-! Concrete runs used by the refutations below.  Byte values spell ASCII
text: `[97, 98, 99] = "abc"`, `[100, 101, 102] = "def"`, `[88] = "X"`,
`[120] = "x"`. -/

/-- `New` buffer after `InsertAt(0, "abc")`. -/
def c1buf1 : Option (Option String × GapBuffer) := InsertAt New 0 [97, 98, 99]

/-- ... then `InsertAt(1, "X")` — an insertion inside the existing chunk. -/
def c1buf2 : Option (Option String × GapBuffer) :=
  c1buf1.bind (fun r => InsertAt r.2 1 [88])

/-- Buffer with chunk size 3 after `InsertAt(0, "abcdef")`: two chunks
`"abc"` (key 0) and `"def"` (key 3). -/
def c2buf1 : Option (Option String × GapBuffer) :=
  InsertAt (NewWithChunkSize 3) 0 [97, 98, 99, 100, 101, 102]

/-- ... then the chunk-aligned `DeleteAt(0, 3)`. -/
def c2buf2 : Option (Option String × GapBuffer) :=
  c2buf1.bind (fun r => DeleteAt r.2 0 3)

/-- `New` buffer after the accepted call `DeleteAt(0, -1048577)`. -/
def c3buf : Option (Option String × GapBuffer) := DeleteAt New 0 (-1048577)

/-- The tree over `Unit` payloads after inserting key 5 twice. -/
def c4tree : Option (RBTree Unit) :=
  (RBTree.insert .nil 5 ()).bind (fun t => RBTree.insert t 5 ())

/-- `New` buffer after `InsertAt(0, "abc")` then `InsertAt(0, "x")`; the
second insert relocates the gap, reinserting the `"abc"` chunk at a new key. -/
def c5buf : Option (Option String × GapBuffer) :=
  (InsertAt New 0 [97, 98, 99]).bind (fun r => InsertAt r.2 0 [120])

/-- `InsertAt(0, "abc")`, `InsertAt(3, "def")`, then the accepted
`DeleteAt(6, -1048576)`: a reachable state with `gapEnd = 0 < gapStart = 6`. -/
def c9buf3 : Option (Option String × GapBuffer) :=
  (InsertAt New 0 [97, 98, 99]).bind (fun r1 =>
    (InsertAt r1.2 3 [100, 101, 102]).bind (fun r2 =>
      DeleteAt r2.2 6 (-1048576)))

/-- ... then `InsertAt(1, "")`. -/
def c9buf4 : Option (Option String × GapBuffer) :=
  c9buf3.bind (fun r => InsertAt r.2 1 [])

/-! Theorems. -/

/-- C1: refuted on the code.  Both inserts are accepted (`0 ≤ pos ≤ length`,
valid UTF-8 text) and return success, the first yields text `"abc"`, but
after `InsertAt(1, "X")` the text is `"abcX"`, not the spliced `"aXbc"`:
`moveGap` relocates only the chunks whose start key lies in the moved span
and repacks them at unit-spaced keys, so an insertion position interior to
an existing chunk is not spliced. -/
theorem C1_insertAt_interior_position_not_spliced :
    c1buf1.map (fun r => (r.1, GetText r.2, r.2.length)) =
      some (none, [97, 98, 99], 3) ∧
    c1buf2.map (fun r => (r.1, GetText r.2, r.2.length)) =
      some (none, [97, 98, 99, 88], 4) ∧
    [97, 98, 99, 88] ≠ [97, 88, 98, 99] := by
  refine ⟨by decide, by decide, by decide⟩

/-- C2: refuted on the code.  With chunk size 3, `InsertAt(0, "abcdef")`
establishes exactly the chunks `"abc"` (key 0) and `"def"` (key 3), so
`DeleteAt(0, 3)` is aligned with whole-chunk boundaries.  The call is
accepted and returns success, yet `GetText()` still returns `"abcdef"`
while `length()` drops to 3: `moveGap` repacked the chunks at keys
1048574/1048575, outside the removal window `[gapEnd, gapEnd + 3)`. -/
theorem C2_deleteAt_aligned_removes_nothing :
    c2buf1.map (fun r =>
        (r.1, (RBTree.inorder r.2.tree).map (fun kv => (kv.1, kv.2.text)))) =
      some (none, [(0, [97, 98, 99]), (3, [100, 101, 102])]) ∧
    c2buf2.map (fun r => (r.1, GetText r.2, r.2.length)) =
      some (none, [97, 98, 99, 100, 101, 102], 3) ∧
    [97, 98, 99, 100, 101, 102] ≠ [100, 101, 102] := by
  refine ⟨by decide, by decide, by decide⟩

/-- C3, counterexample: `DeleteAt(0, -1048577)` on a fresh buffer passes the
validation check `pos < 0 || pos+count > length` and returns success, but
leaves `gapStart = 0 > gapEnd = -1`. -/
theorem C3_counterexample_negative_count :
    c3buf.map (fun r => (r.1, r.2.gapStart, r.2.gapEnd)) = some (none, 0, -1) ∧
    ¬ ((0 : Int) ≤ -1) := by
  refine ⟨by decide, by decide⟩

/-- C4, counterexample: starting from the empty tree, the insert sequence
`insert(5), insert(5)` is accepted and its in-order key sequence is
`[5, 5]`, which is not strictly ascending. -/
theorem C4_counterexample_duplicate_key :
    c4tree.map RBTree.keyList = some [5, 5] ∧
    ¬ List.Pairwise (fun a b => a < b) [(5 : Int), 5] := by
  refine ⟨by decide, by decide⟩

/-- C5, counterexample: after `InsertAt(0, "abc")` then `InsertAt(0, "x")`,
the `"abc"` chunk is stored under key 1048575 while its recorded `Pos` is
still 0: `moveGap` reinserts chunks at new keys without updating `Pos`. -/
theorem C5_counterexample_moveGap_stale_pos :
    c5buf.map (fun r =>
        (r.1, (RBTree.inorder r.2.tree).map (fun kv => (kv.1, kv.2.pos)))) =
      some (none, [(0, 0), (1048575, 0)]) ∧
    (1048575 : Int) ≠ 0 := by
  refine ⟨by decide, by decide⟩

/-- C9: refuted on the code.  The state `c9buf3` is reachable through
accepted calls only and has text `"abcdef"`; the accepted call
`InsertAt(1, "")` returns success and leaves `length()` unchanged, but
`GetText()` becomes `"defabc"`: with `gapEnd < gapStart` (the aftermath of
an accepted negative-count delete) `moveGap` reorders the chunks. -/
theorem C9_empty_insert_changes_text :
    c9buf3.map (fun r => (r.1, GetText r.2, r.2.length)) =
      some (none, [97, 98, 99, 100, 101, 102], 1048582) ∧
    c9buf4.map (fun r => (r.1, GetText r.2, r.2.length)) =
      some (none, [100, 101, 102, 97, 98, 99], 1048582) ∧
    [100, 101, 102, 97, 98, 99] ≠ [97, 98, 99, 100, 101, 102] := by
  refine ⟨by decide, by decide, by decide⟩

/-- C10: confirmed.  For every non-positive chunk size the constructor
ignores the argument and produces exactly the default buffer: chunk size
4096, `gapStart = 0`, `gapEnd` the default gap capacity, length 0. -/
theorem C10_nonpositive_chunk_size_defaults (c : Int) (h : c ≤ 0) :
    NewWithChunkSize c = New ∧
    (NewWithChunkSize c).chunkSize = 4096 ∧
    (NewWithChunkSize c).gapStart = 0 ∧
    (NewWithChunkSize c).gapEnd = DEFAULT_GAP_SIZE ∧
    (NewWithChunkSize c).length = 0 := by
  simp [NewWithChunkSize, New, DEFAULT_CHUNK_SIZE, if_pos h]

/-- Witness for C10 at the concrete chunk size `-5`. -/
theorem C10_witness :
    (-5 : Int) ≤ 0 ∧ NewWithChunkSize (-5) = New :=
  ⟨by decide, (C10_nonpositive_chunk_size_defaults (-5) (by decide)).1⟩

/-! Bookkeeping lemmas about the buffer operations. -/

/-- A successful `moveGap` preserves the gap width, the length and the chunk
size. -/
theorem moveGap_fields (gb : GapBuffer) (pos : Int) (gb2 : GapBuffer)
    (h : moveGap gb pos = some gb2) :
    gb2.gapEnd - gb2.gapStart = gb.gapEnd - gb.gapStart ∧
      gb2.length = gb.length ∧ gb2.chunkSize = gb.chunkSize := by
  unfold moveGap at h
  split at h
  · cases h
    exact ⟨rfl, rfl, rfl⟩
  · split at h
    · dsimp only at h
      split at h
      · exact absurd h (by simp)
      · split at h
        · exact absurd h (by simp)
        · cases h
          refine ⟨by simp, rfl, rfl⟩
    · dsimp only at h
      split at h
      · exact absurd h (by simp)
      · split at h
        · exact absurd h (by simp)
        · cases h
          refine ⟨by simp, rfl, rfl⟩

/-- A successful `expandGap` keeps `gapStart`, the length and the chunk size,
and achieves a gap of at least `minSize`. -/
theorem expandGap_fields (gb : GapBuffer) (minSize : Int) (gb2 : GapBuffer)
    (h : expandGap gb minSize = some gb2) :
    gb2.gapStart = gb.gapStart ∧ gb2.length = gb.length ∧
      gb2.chunkSize = gb.chunkSize ∧ minSize ≤ gb2.gapEnd - gb2.gapStart := by
  unfold expandGap at h
  split at h
  · cases h
    refine ⟨rfl, rfl, rfl, by omega⟩
  · rename_i hlt
    dsimp only at h
    split at h
    · exact absurd h (by simp)
    · split at h
      · exact absurd h (by simp)
      · cases h
        refine ⟨rfl, rfl, rfl, ?_⟩
        simp only
        split <;> omega

/-- The backward trim never moves `end` forward. -/
theorem insTrimEnd_le (text : List Nat) (i : Nat) :
    ∀ fuel e e2, insTrimEnd text i fuel e = some e2 → e2 ≤ e := by
  intro fuel
  induction fuel with
  | zero =>
    intro e e2 h
    cases e <;> simp [insTrimEnd] at h
  | succ fuel ih =>
    intro e e2 h
    cases e with
    | zero => simp [insTrimEnd] at h
    | succ e =>
      simp only [insTrimEnd] at h
      split at h
      · cases h; omega
      · split at h
        · exact Nat.le_trans (Nat.le_succ_of_le (ih e e2 h)) (Nat.le_refl _)
        · cases h; omega

/-- On success, the chunking loop advances `gapStart` by exactly the number
of bytes remaining in `text`. -/
theorem insertChunks_gapStart (cs : Int) (text : List Nat) :
    ∀ fuel i tree gs out, insertChunks cs fuel text i tree gs = some out →
      i ≤ text.length → out.2 = gs + ((text.length : Int) - (i : Int)) := by
  intro fuel
  induction fuel with
  | zero =>
    intro i tree gs out h hi
    simp only [insertChunks] at h
    split at h
    · exact absurd h (by simp)
    · cases h
      have : i = text.length := by omega
      subst this
      simp
  | succ fuel ih =>
    intro i tree gs out h hi
    simp only [insertChunks] at h
    split at h
    · rename_i hilt
      split at h
      · exact absurd h (by simp)
      · rename_i endRes endN hEnd
        split at h
        · exact absurd h (by simp)
        · split at h
          · exact absurd h (by simp)
          · rename_i tree2 hins
            have hend_le : endN ≤ text.length := by
              rcases hEnd with hEnd
              split at hEnd
              · cases hEnd; omega
              · rename_i hnotgt
                have := insTrimEnd_le text i _ _ _ hEnd
                omega
            have := ih endN tree2 (gs + ((endN : Int) - (i : Int))) out h hend_le
            rw [this]
            omega
    · cases h
      have : i = text.length := by omega
      subst this
      simp

/-- A successful `InsertAt` preserves `gapStart ≤ gapEnd`. -/
theorem InsertAt_gap_le (gb : GapBuffer) (pos : Int) (text : List Nat)
    (e : Option String) (gb2 : GapBuffer)
    (h : InsertAt gb pos text = some (e, gb2)) (hg : gb.gapStart ≤ gb.gapEnd) :
    gb2.gapStart ≤ gb2.gapEnd := by
  unfold InsertAt at h
  split at h
  · cases h
    exact hg
  · split at h
    · exact absurd h (by simp)
    · rename_i gb1 hmv
      have hg1 : gb1.gapStart ≤ gb1.gapEnd := by
        by_cases hp : pos = gb.gapStart
        · rw [if_neg (by simp [hp])] at hmv
          cases hmv
          exact hg
        · rw [if_pos hp] at hmv
          have := moveGap_fields gb pos gb1 hmv
          omega
      split at h
      · exact absurd h (by simp)
      · rename_i gb2p hex
        have hcap : (text.length : Int) ≤ gb2p.gapEnd - gb2p.gapStart := by
          by_cases hc : (text.length : Int) > gb1.gapEnd - gb1.gapStart
          · rw [if_pos hc] at hex
            exact (expandGap_fields gb1 _ gb2p hex).2.2.2
          · rw [if_neg hc] at hex
            cases hex
            omega
        split at h
        · exact absurd h (by simp)
        · rename_i tree2 gs2 hins
          cases h
          have := insertChunks_gapStart gb2p.chunkSize text _ 0 gb2p.tree
            gb2p.gapStart (tree2, gs2) hins (by omega)
          simp only at this
          simp only
          omega

/-- A successful `DeleteAt` with a nonnegative count preserves
`gapStart ≤ gapEnd`. -/
theorem DeleteAt_gap_le (gb : GapBuffer) (pos count : Int)
    (e : Option String) (gb2 : GapBuffer)
    (h : DeleteAt gb pos count = some (e, gb2)) (hg : gb.gapStart ≤ gb.gapEnd)
    (hc : 0 ≤ count) : gb2.gapStart ≤ gb2.gapEnd := by
  unfold DeleteAt at h
  split at h
  · cases h
    exact hg
  · split at h
    · exact absurd h (by simp)
    · rename_i gb1 hmv
      have hg1 : gb1.gapStart ≤ gb1.gapEnd := by
        by_cases hp : pos = gb.gapStart
        · rw [if_neg (by simp [hp])] at hmv
          cases hmv
          exact hg
        · rw [if_pos hp] at hmv
          have := moveGap_fields gb pos gb1 hmv
          omega
      dsimp only at h
      split at h
      · exact absurd h (by simp)
      · cases h
        simp only
        omega

/-- On success `DeleteAt` shrinks `length` by exactly `count`. -/
theorem DeleteAt_ok_length (gb : GapBuffer) (pos count : Int) (gb2 : GapBuffer)
    (h : DeleteAt gb pos count = some (none, gb2)) :
    gb2.length = gb.length - count := by
  unfold DeleteAt at h
  split at h
  · exact absurd h (by simp)
  · split at h
    · exact absurd h (by simp)
    · rename_i gb1 hmv
      have hlen : gb1.length = gb.length := by
        by_cases hp : pos = gb.gapStart
        · rw [if_neg (by simp [hp])] at hmv
          cases hmv
          rfl
        · rw [if_pos hp] at hmv
          exact (moveGap_fields gb pos gb1 hmv).2.1
      dsimp only at h
      split at h
      · exact absurd h (by simp)
      · cases h
        simp only
        omega

/-- Every error returned by `InsertAt` is the validation error, with the
buffer unchanged. -/
theorem InsertAt_err (gb : GapBuffer) (pos : Int) (text : List Nat)
    (e : String) (gb2 : GapBuffer)
    (h : InsertAt gb pos text = some (some e, gb2)) :
    gb2 = gb ∧ (pos < 0 ∨ pos > gb.length) := by
  unfold InsertAt at h
  split at h
  · cases h
    rename_i hcond
    exact ⟨rfl, hcond⟩
  · split at h
    · exact absurd h (by simp)
    · split at h
      · exact absurd h (by simp)
      · split at h
        · exact absurd h (by simp)
        · simp at h

/-- Every error returned by `DeleteAt` is the validation error, with the
buffer unchanged. -/
theorem DeleteAt_err (gb : GapBuffer) (pos count : Int)
    (e : String) (gb2 : GapBuffer)
    (h : DeleteAt gb pos count = some (some e, gb2)) :
    gb2 = gb ∧ (pos < 0 ∨ pos + count > gb.length) := by
  unfold DeleteAt at h
  split at h
  · cases h
    rename_i hcond
    exact ⟨rfl, hcond⟩
  · split at h
    · exact absurd h (by simp)
    · dsimp only at h
      split at h
      · exact absurd h (by simp)
      · simp at h

/-- Every error returned by `Replace` is its own validation error, with the
buffer unchanged (the delete and insert sub-steps cannot fail validation once
`Replace`'s check has passed). -/
theorem Replace_err (gb : GapBuffer) (a b : Int) (text : List Nat)
    (e : String) (gb2 : GapBuffer)
    (h : Replace gb a b text = some (some e, gb2)) :
    gb2 = gb ∧ (a < 0 ∨ b > gb.length ∨ a > b) := by
  unfold Replace at h
  split at h
  · cases h
    rename_i hcond
    exact ⟨rfl, hcond⟩
  · rename_i hval
    split at h
    · exact absurd h (by simp)
    · rename_i e1 gb1 hdel
      obtain ⟨hg1, hcond⟩ := DeleteAt_err gb a (b - a) e1 gb1 hdel
      exact absurd hcond (by omega)
    · rename_i gb1 hdel
      have hlen := DeleteAt_ok_length gb a (b - a) gb1 hdel
      obtain ⟨hg2, hcond⟩ := InsertAt_err gb1 a text e gb2 h
      exact absurd hcond (by omega)

/-- A successful `Replace` preserves `gapStart ≤ gapEnd`. -/
theorem Replace_gap_le (gb : GapBuffer) (a b : Int) (text : List Nat)
    (e : Option String) (gb2 : GapBuffer)
    (h : Replace gb a b text = some (e, gb2)) (hg : gb.gapStart ≤ gb.gapEnd) :
    gb2.gapStart ≤ gb2.gapEnd := by
  unfold Replace at h
  split at h
  · cases h
    exact hg
  · rename_i hval
    split at h
    · exact absurd h (by simp)
    · rename_i e1 gb1 hdel
      cases h
      exact DeleteAt_gap_le gb a (b - a) (some e1) gb2 hdel hg (by omega)
    · rename_i gb1 hdel
      exact InsertAt_gap_le gb1 a text e gb2 h
        (DeleteAt_gap_le gb a (b - a) none gb1 hdel hg (by omega))

/-- The byte index never moves backwards in the range-scanning loop. -/
theorem runeRangeGo_ge (want : Nat) :
    ∀ s bi, bi ≤ runeRangeGo want s bi := by
  induction want with
  | zero =>
    intro s bi
    simp [runeRangeGo]
  | succ w ih =>
    intro s bi
    cases s with
    | nil => simp [runeRangeGo]
    | cons b t =>
      simp only [runeRangeGo]
      exact le_trans (by omega) (ih ((b :: t).drop (decodeRune (b :: t)).2)
        (bi + ((decodeRune (b :: t)).2 : Int)))

/-- A non-failing `RuneIndexRange` returns a nondecreasing byte range. -/
theorem RuneIndexRange_le (s : List Nat) (a b x y : Int)
    (h : RuneIndexRange s a b = (x, y)) (hx : 0 ≤ x) : x ≤ y := by
  unfold RuneIndexRange at h
  split at h
  · cases h
    omega
  · dsimp only at h
    split at h
    · cases h
      omega
    · split at h
      · cases h
        omega
      · cases h
        exact runeRangeGo_ge _ _ _

/-- A successful `InsertRuneAt` preserves `gapStart ≤ gapEnd`. -/
theorem InsertRuneAt_gap_le (gb : GapBuffer) (p : Int) (text : List Nat)
    (e : Option String) (gb2 : GapBuffer)
    (h : InsertRuneAt gb p text = some (e, gb2)) (hg : gb.gapStart ≤ gb.gapEnd) :
    gb2.gapStart ≤ gb2.gapEnd := by
  unfold InsertRuneAt at h
  split at h
  · cases h
    exact hg
  · exact InsertAt_gap_le _ _ _ _ _ h hg

/-- A successful `DeleteRuneAt` preserves `gapStart ≤ gapEnd` (the rune range
it derives always has a nonnegative byte count). -/
theorem DeleteRuneAt_gap_le (gb : GapBuffer) (p c : Int)
    (e : Option String) (gb2 : GapBuffer)
    (h : DeleteRuneAt gb p c = some (e, gb2)) (hg : gb.gapStart ≤ gb.gapEnd) :
    gb2.gapStart ≤ gb2.gapEnd := by
  unfold DeleteRuneAt at h
  split at h
  · cases h
    exact hg
  · split at h
    · cases h
      exact hg
    · split at h
      · cases h
        exact hg
      · rename_i hbr
        refine DeleteAt_gap_le _ _ _ _ _ h hg ?_
        have := RuneIndexRange_le (GetText gb) p (p + c)
          (RuneIndexRange (GetText gb) p (p + c)).1
          (RuneIndexRange (GetText gb) p (p + c)).2 rfl (by omega)
        omega

/-- A successful `ReplaceRune` preserves `gapStart ≤ gapEnd`. -/
theorem ReplaceRune_gap_le (gb : GapBuffer) (a b : Int) (text : List Nat)
    (e : Option String) (gb2 : GapBuffer)
    (h : ReplaceRune gb a b text = some (e, gb2)) (hg : gb.gapStart ≤ gb.gapEnd) :
    gb2.gapStart ≤ gb2.gapEnd := by
  unfold ReplaceRune at h
  split at h
  · cases h
    exact hg
  · split at h
    · cases h
      exact hg
    · exact Replace_gap_le _ _ _ _ _ _ h hg

/-- C3 (amended): `gapStart ≤ gapEnd` holds initially and is preserved by
every successful `insertAt`, `replace` and rune-wrapper call, and by every
successful `deleteAt` call whose count is nonnegative.  (`deleteAt`'s
validation also accepts negative counts, and those break the invariant —
see the counterexample.) -/
theorem C3_gap_invariant_preserved :
    New.gapStart ≤ New.gapEnd ∧
    (∀ c : Int, (NewWithChunkSize c).gapStart ≤ (NewWithChunkSize c).gapEnd) ∧
    (∀ gb pos text e gb2, gb.gapStart ≤ gb.gapEnd →
      InsertAt gb pos text = some (e, gb2) → gb2.gapStart ≤ gb2.gapEnd) ∧
    (∀ gb pos count e gb2, gb.gapStart ≤ gb.gapEnd → 0 ≤ count →
      DeleteAt gb pos count = some (e, gb2) → gb2.gapStart ≤ gb2.gapEnd) ∧
    (∀ gb a b text e gb2, gb.gapStart ≤ gb.gapEnd →
      Replace gb a b text = some (e, gb2) → gb2.gapStart ≤ gb2.gapEnd) ∧
    (∀ gb p text e gb2, gb.gapStart ≤ gb.gapEnd →
      InsertRuneAt gb p text = some (e, gb2) → gb2.gapStart ≤ gb2.gapEnd) ∧
    (∀ gb p c e gb2, gb.gapStart ≤ gb.gapEnd →
      DeleteRuneAt gb p c = some (e, gb2) → gb2.gapStart ≤ gb2.gapEnd) ∧
    (∀ gb a b text e gb2, gb.gapStart ≤ gb.gapEnd →
      ReplaceRune gb a b text = some (e, gb2) → gb2.gapStart ≤ gb2.gapEnd) := by
  refine ⟨by decide, fun c => by simp [NewWithChunkSize, DEFAULT_GAP_SIZE],
    ?_, ?_, ?_, ?_, ?_, ?_⟩
  · intro gb pos text e gb2 hg h
    exact InsertAt_gap_le gb pos text e gb2 h hg
  · intro gb pos count e gb2 hg hc h
    exact DeleteAt_gap_le gb pos count e gb2 h hg hc
  · intro gb a b text e gb2 hg h
    exact Replace_gap_le gb a b text e gb2 h hg
  · intro gb p text e gb2 hg h
    exact InsertRuneAt_gap_le gb p text e gb2 h hg
  · intro gb p c e gb2 hg h
    exact DeleteRuneAt_gap_le gb p c e gb2 h hg
  · intro gb a b text e gb2 hg h
    exact ReplaceRune_gap_le gb a b text e gb2 h hg

/-- Witness for C3 at a concrete successful delete on a concrete buffer. -/
theorem C3_gap_invariant_witness :
    DeleteAt New 0 0 = some (none, New) ∧ New.gapStart ≤ New.gapEnd :=
  ⟨by decide,
    C3_gap_invariant_preserved.2.2.2.1 New 0 0 none New (by decide) (by decide)
      (by decide)⟩

/-- C8: every `RangeError` any public operation returns comes from its
validation checks and leaves the buffer exactly as it was (`getTextRange`
mutates nothing; its errors likewise arise only from validation). -/
theorem C8_validation_failure_leaves_state (gb : GapBuffer) :
    (∀ pos text e gb2, InsertAt gb pos text = some (some e, gb2) → gb2 = gb) ∧
    (∀ pos count e gb2, DeleteAt gb pos count = some (some e, gb2) → gb2 = gb) ∧
    (∀ a b text e gb2, Replace gb a b text = some (some e, gb2) → gb2 = gb) ∧
    (∀ a b e, GetTextRange gb a b = .error e → a < 0 ∨ b > gb.length ∨ a > b) ∧
    (∀ p text e gb2, InsertRuneAt gb p text = some (some e, gb2) → gb2 = gb) ∧
    (∀ p c e gb2, DeleteRuneAt gb p c = some (some e, gb2) → gb2 = gb) ∧
    (∀ a b text e gb2, ReplaceRune gb a b text = some (some e, gb2) → gb2 = gb) ∧
    (∀ a b e, GetRuneTextRange gb a b = .error e →
      e = "invalid rune range" ∨ e = "invalid range") := by
  refine ⟨?_, ?_, ?_, ?_, ?_, ?_, ?_, ?_⟩
  · intro pos text e gb2 h
    exact (InsertAt_err gb pos text e gb2 h).1
  · intro pos count e gb2 h
    exact (DeleteAt_err gb pos count e gb2 h).1
  · intro a b text e gb2 h
    exact (Replace_err gb a b text e gb2 h).1
  · intro a b e h
    unfold GetTextRange at h
    split at h
    · rename_i hcond
      exact hcond
    · exact absurd h (by simp)
  · intro p text e gb2 h
    unfold InsertRuneAt at h
    split at h
    · cases h
      rfl
    · exact (InsertAt_err gb _ text e gb2 h).1
  · intro p c e gb2 h
    unfold DeleteRuneAt at h
    split at h
    · cases h
      rfl
    · split at h
      · cases h
        rfl
      · split at h
        · cases h
          rfl
        · exact (DeleteAt_err gb _ _ e gb2 h).1
  · intro a b text e gb2 h
    unfold ReplaceRune at h
    split at h
    · cases h
      rfl
    · split at h
      · cases h
        rfl
      · exact (Replace_err gb _ _ text e gb2 h).1
  · intro a b e h
    unfold GetRuneTextRange at h
    split at h
    · cases h
      exact Or.inl rfl
    · split at h
      · cases h
        exact Or.inl rfl
      · unfold GetTextRange at h
        split at h
        · cases h
          exact Or.inr rfl
        · exact absurd h (by simp)

/-! UTF-8 lemmas for C7. -/

theorem land31_add : ∀ x < 32, Nat.land (192 + x) 31 = x := by decide

theorem land63_add : ∀ x < 64, Nat.land (128 + x) 63 = x := by decide

theorem land15_add : ∀ x < 16, Nat.land (224 + x) 15 = x := by decide

theorem land7_add : ∀ x < 8, Nat.land (240 + x) 7 = x := by decide

theorem land31_range (b : Nat) (h1 : 192 ≤ b) (h2 : b < 224) :
    Nat.land b 31 = b - 192 := by
  have := land31_add (b - 192) (by omega)
  rwa [show 192 + (b - 192) = b from by omega] at this

theorem land63_range (b : Nat) (h1 : 128 ≤ b) (h2 : b < 192) :
    Nat.land b 63 = b - 128 := by
  have := land63_add (b - 128) (by omega)
  rwa [show 128 + (b - 128) = b from by omega] at this

theorem land15_range (b : Nat) (h1 : 224 ≤ b) (h2 : b < 240) :
    Nat.land b 15 = b - 224 := by
  have := land15_add (b - 224) (by omega)
  rwa [show 224 + (b - 224) = b from by omega] at this

theorem land7_range (b : Nat) (h1 : 240 ≤ b) (h2 : b < 248) :
    Nat.land b 7 = b - 240 := by
  have := land7_add (b - 240) (by omega)
  rwa [show 240 + (b - 240) = b from by omega] at this

/-- Every decode result is either the one-byte error marker or a valid
Unicode scalar value, and its size is at least one byte. -/
theorem decodeRune_spec (b : Nat) (s : List Nat) :
    ((decodeRune (b :: s)).1 = runeError ∧ (decodeRune (b :: s)).2 = 1) ∨
      (validRune (decodeRune (b :: s)).1 = true ∧ 1 ≤ (decodeRune (b :: s)).2) := by
  unfold decodeRune
  dsimp only
  split
  · rename_i hb
    right
    refine ⟨by simp [validRune]; omega, by omega⟩
  · split
    · exact Or.inl ⟨rfl, rfl⟩
    · rename_i hb0 hrange
      match s with
      | [] => exact Or.inl ⟨rfl, rfl⟩
      | b1 :: s1 =>
        dsimp only
        split
        · exact Or.inl ⟨rfl, rfl⟩
        · rename_i hacc
          split
          · rename_i h2b
            right
            have e1 : Nat.land b 31 ≤ 31 := Nat.and_le_right
            have e2 : Nat.land b1 63 ≤ 63 := Nat.and_le_right
            refine ⟨by simp [validRune]; omega, by omega⟩
          · rename_i h2b
            match s1 with
            | [] => exact Or.inl ⟨rfl, rfl⟩
            | b2 :: s2 =>
              dsimp only
              split
              · exact Or.inl ⟨rfl, rfl⟩
              · rename_i hb2
                split
                · rename_i h3b
                  right
                  refine ⟨?_, by omega⟩
                  have e2 : Nat.land b2 63 ≤ 63 := Nat.and_le_right
                  have hbr : 224 ≤ b ∧ b < 240 := by omega
                  have e0 : Nat.land b 15 = b - 224 := land15_range b hbr.1 hbr.2
                  by_cases hbe : b = 237
                  · subst hbe
                    have haccv : accept1 237 = (128, 159) := by decide
                    rw [haccv] at hacc
                    simp only at hacc
                    have e1 : Nat.land b1 63 = b1 - 128 :=
                      land63_range b1 (by omega) (by omega)
                    simp only [validRune, e0, e1]
                    simp only [decide_eq_true_eq, Bool.or_eq_true, Bool.and_eq_true]
                    omega
                  · by_cases hbe0 : b = 224
                    · subst hbe0
                      have haccv : accept1 224 = (160, 191) := by decide
                      rw [haccv] at hacc
                      simp only at hacc
                      have e1 : Nat.land b1 63 = b1 - 128 :=
                        land63_range b1 (by omega) (by omega)
                      simp only [validRune, e0, e1]
                      simp only [decide_eq_true_eq, Bool.or_eq_true, Bool.and_eq_true]
                      omega
                    · have haccv : accept1 b = (128, 191) := by
                        unfold accept1
                        rw [if_neg (by omega), if_neg (by omega), if_neg (by omega),
                          if_neg (by omega)]
                      rw [haccv] at hacc
                      simp only at hacc
                      have e1 : Nat.land b1 63 = b1 - 128 :=
                        land63_range b1 (by omega) (by omega)
                      simp only [validRune, e0, e1]
                      simp only [decide_eq_true_eq, Bool.or_eq_true, Bool.and_eq_true]
                      omega
                · rename_i h3b
                  match s2 with
                  | [] => exact Or.inl ⟨rfl, rfl⟩
                  | b3 :: s3 =>
                    dsimp only
                    split
                    · exact Or.inl ⟨rfl, rfl⟩
                    · rename_i hb3
                      right
                      refine ⟨?_, by omega⟩
                      have e2 : Nat.land b2 63 ≤ 63 := Nat.and_le_right
                      have e3 : Nat.land b3 63 ≤ 63 := Nat.and_le_right
                      have hbr : 240 ≤ b ∧ b < 245 := by omega
                      have e0 : Nat.land b 7 = b - 240 :=
                        land7_range b hbr.1 (by omega)
                      by_cases hbe : b = 240
                      · subst hbe
                        have haccv : accept1 240 = (144, 191) := by decide
                        rw [haccv] at hacc
                        simp only at hacc
                        have e1 : Nat.land b1 63 = b1 - 128 :=
                          land63_range b1 (by omega) (by omega)
                        simp only [validRune, e0, e1]
                        simp only [decide_eq_true_eq, Bool.or_eq_true, Bool.and_eq_true]
                        omega
                      · by_cases hbe4 : b = 244
                        · subst hbe4
                          have haccv : accept1 244 = (128, 143) := by decide
                          rw [haccv] at hacc
                          simp only at hacc
                          have e1 : Nat.land b1 63 = b1 - 128 :=
                            land63_range b1 (by omega) (by omega)
                          simp only [validRune, e0, e1]
                          simp only [decide_eq_true_eq, Bool.or_eq_true, Bool.and_eq_true]
                          omega
                        · have haccv : accept1 b = (128, 191) := by
                            unfold accept1
                            rw [if_neg (by omega), if_neg (by omega), if_neg (by omega),
                              if_neg (by omega)]
                          rw [haccv] at hacc
                          simp only at hacc
                          have e1 : Nat.land b1 63 = b1 - 128 :=
                            land63_range b1 (by omega) (by omega)
                          simp only [validRune, e0, e1]
                          simp only [decide_eq_true_eq, Bool.or_eq_true, Bool.and_eq_true]
                          omega

/-- A decoded size is at least one byte on nonempty input. -/
theorem decodeRune_size_pos (b : Nat) (s : List Nat) :
    1 ≤ (decodeRune (b :: s)).2 := by
  rcases decodeRune_spec b s with ⟨_, h⟩ | ⟨_, h⟩ <;> omega

theorem decode_enc1 (r : Nat) (h1 : r < 0x80) (ys : List Nat) :
    decodeRune (r :: ys) = (r, 1) := by
  unfold decodeRune
  dsimp only
  rw [if_pos h1]

theorem decode_enc2 (r : Nat) (h1 : 0x80 ≤ r) (h2 : r < 0x800) (ys : List Nat) :
    decodeRune ((0xC0 + r / 64) :: (0x80 + r % 64) :: ys) = (r, 2) := by
  unfold decodeRune
  dsimp only
  rw [if_neg (by omega), if_neg (by omega)]
  have haccv : accept1 (0xC0 + r / 64) = (128, 191) := by
    unfold accept1
    rw [if_neg (by omega), if_neg (by omega), if_neg (by omega), if_neg (by omega)]
  rw [haccv]
  dsimp only
  rw [if_neg (by omega), if_pos (by omega)]
  rw [land31_add (r / 64) (by omega), land63_add (r % 64) (by omega)]
  simp only [Prod.mk.injEq]
  exact ⟨by omega, trivial⟩

theorem decode_enc3 (r : Nat) (h1 : 0x800 ≤ r) (h2 : r < 0x10000)
    (hv : r < 0xD800 ∨ 0xDFFF < r) (ys : List Nat) :
    decodeRune ((0xE0 + r / 4096) :: (0x80 + r / 64 % 64) :: (0x80 + r % 64) :: ys) =
      (r, 3) := by
  unfold decodeRune
  dsimp only
  rw [if_neg (by omega), if_neg (by omega)]
  have haccv : (accept1 (0xE0 + r / 4096)).1 ≤ 0x80 + r / 64 % 64 ∧
      0x80 + r / 64 % 64 ≤ (accept1 (0xE0 + r / 4096)).2 := by
    by_cases hc : r < 0x1000
    · rw [show 0xE0 + r / 4096 = 224 from by omega,
        show accept1 224 = (160, 191) from by decide]
      simp only
      omega
    · by_cases hd : r / 4096 = 13
      · rw [show 0xE0 + r / 4096 = 237 from by omega,
          show accept1 237 = (128, 159) from by decide]
        simp only
        omega
      · rw [show accept1 (0xE0 + r / 4096) = (128, 191) from by
          unfold accept1
          rw [if_neg (by omega), if_neg (by omega), if_neg (by omega),
            if_neg (by omega)]]
        simp only
        omega
  rw [if_neg (by omega), if_neg (by omega)]
  rw [if_neg (by omega), if_pos (by omega)]
  rw [land15_add (r / 4096) (by omega), land63_add (r / 64 % 64) (by omega),
    land63_add (r % 64) (by omega)]
  simp only [Prod.mk.injEq]
  exact ⟨by omega, trivial⟩

theorem decode_enc4 (r : Nat) (h1 : 0x10000 ≤ r) (h2 : r ≤ 0x10FFFF) (ys : List Nat) :
    decodeRune ((0xF0 + r / 262144) :: (0x80 + r / 4096 % 64) ::
      (0x80 + r / 64 % 64) :: (0x80 + r % 64) :: ys) = (r, 4) := by
  unfold decodeRune
  dsimp only
  rw [if_neg (by omega), if_neg (by omega)]
  have haccv : (accept1 (0xF0 + r / 262144)).1 ≤ 0x80 + r / 4096 % 64 ∧
      0x80 + r / 4096 % 64 ≤ (accept1 (0xF0 + r / 262144)).2 := by
    by_cases hc : r < 0x40000
    · rw [show 0xF0 + r / 262144 = 240 from by omega,
        show accept1 240 = (144, 191) from by decide]
      simp only
      omega
    · by_cases hd : r / 262144 = 4
      · rw [show 0xF0 + r / 262144 = 244 from by omega,
          show accept1 244 = (128, 143) from by decide]
        simp only
        omega
      · rw [show accept1 (0xF0 + r / 262144) = (128, 191) from by
          unfold accept1
          rw [if_neg (by omega), if_neg (by omega), if_neg (by omega),
            if_neg (by omega)]]
        simp only
        omega
  rw [if_neg (by omega), if_neg (by omega)]
  rw [if_neg (by omega), if_neg (by omega)]
  rw [if_neg (by omega)]
  rw [land7_add (r / 262144) (by omega), land63_add (r / 4096 % 64) (by omega),
    land63_add (r / 64 % 64) (by omega), land63_add (r % 64) (by omega)]
  simp only [Prod.mk.injEq]
  exact ⟨by omega, trivial⟩

theorem encodeRune_ne_nil (r : Nat) : encodeRune r ≠ [] := by
  unfold encodeRune
  split_ifs <;> simp

theorem encodeRune_length_one (r : Nat) (h : (encodeRune r).length = 1) :
    r < 0x80 := by
  unfold encodeRune at h
  split_ifs at h <;> simp_all

/-- Decoding an encoded valid scalar recovers the scalar and consumes
exactly its encoding. -/
theorem decode_encode (r : Nat) (hv : validRune r = true) (ys : List Nat) :
    decodeRune (encodeRune r ++ ys) = (r, (encodeRune r).length) := by
  have hv2 : r < 0xD800 ∨ (0xDFFF < r ∧ r ≤ 0x10FFFF) := by
    simpa [validRune, decide_eq_true_eq, Bool.or_eq_true, Bool.and_eq_true] using hv
  unfold encodeRune
  rw [if_neg (by omega)]
  by_cases c1 : r < 0x80
  · rw [if_pos c1]
    simpa using decode_enc1 r c1 ys
  · rw [if_neg c1]
    by_cases c2 : r < 0x800
    · rw [if_pos c2]
      simpa using decode_enc2 r (by omega) c2 ys
    · rw [if_neg c2]
      by_cases c3 : r < 0x10000
      · rw [if_pos c3]
        simpa using decode_enc3 r (by omega) c3 (by omega) ys
      · rw [if_neg c3]
        simpa using decode_enc4 r (by omega) (by omega) ys

theorem validN_cons (f : Nat) (b : Nat) (s : List Nat) :
    validN (f + 1) (b :: s) =
      if (decodeRune (b :: s)).1 = runeError ∧ (decodeRune (b :: s)).2 = 1 then false
      else validN f ((b :: s).drop (decodeRune (b :: s)).2) := rfl

/-- The scan result does not depend on the fuel, as long as the fuel covers
the length. -/
theorem validN_fuel_eq : ∀ f1 f2 s, s.length ≤ f1 → s.length ≤ f2 →
    validN f1 s = validN f2 s := by
  intro f1
  induction f1 with
  | zero =>
    intro f2 s h1 h2
    have : s = [] := List.eq_nil_of_length_eq_zero (by omega)
    subst this
    cases f2 <;> rfl
  | succ f ih =>
    intro f2 s h1 h2
    cases s with
    | nil => cases f2 <;> rfl
    | cons b t =>
      obtain ⟨g, rfl⟩ : ∃ g, f2 = g + 1 := ⟨f2 - 1, by simp at h2; omega⟩
      rw [validN_cons, validN_cons]
      split
      · rfl
      · have hsz := decodeRune_size_pos b t
        apply ih
        · simp only [List.length_drop, List.length_cons] at h1 ⊢
          omega
        · simp only [List.length_drop, List.length_cons] at h2 ⊢
          omega

/-- Prepending the encoding of a valid scalar preserves validity of the
rest. -/
theorem validUTF8_enc_append (r : Nat) (hv : validRune r = true) (ys : List Nat) :
    validUTF8 (encodeRune r ++ ys) = validUTF8 ys := by
  rcases henc : encodeRune r with _ | ⟨e0, erest⟩
  · exact absurd henc (encodeRune_ne_nil r)
  · have hdec : decodeRune (e0 :: (erest ++ ys)) = (r, erest.length + 1) := by
      have h0 := decode_encode r hv ys
      rw [henc] at h0
      simpa [List.cons_append] using h0
    unfold validUTF8
    simp only [List.cons_append]
    rw [List.length_cons, validN_cons, hdec]
    dsimp only
    rw [if_neg ?hne]
    case hne =>
      rintro ⟨hr, hlen1⟩
      have : (encodeRune r).length = 1 := by rw [henc]; simpa using hlen1
      have := encodeRune_length_one r this
      rw [runeError] at hr
      omega
    rw [List.drop_succ_cons,
      show (erest ++ ys).drop erest.length = ys from List.drop_left erest ys]
    apply validN_fuel_eq
    · simp only [List.length_append]
      omega
    · omega

theorem ensureLoop_cons (f : Nat) (b : Nat) (s : List Nat) :
    ensureLoop (f + 1) (b :: s) =
      if (decodeRune (b :: s)).1 = runeError ∧ (decodeRune (b :: s)).2 = 1 then
        ensureLoop f s
      else encodeRune (decodeRune (b :: s)).1 ++
        ensureLoop f ((b :: s).drop (decodeRune (b :: s)).2) := rfl

/-- The repair loop always produces valid UTF-8 (with fuel covering the
input length, which every call site supplies). -/
theorem ensureLoop_valid : ∀ fuel s, s.length ≤ fuel →
    validUTF8 (ensureLoop fuel s) = true := by
  intro fuel
  induction fuel with
  | zero =>
    intro s h
    have : s = [] := List.eq_nil_of_length_eq_zero (by omega)
    subst this
    rfl
  | succ f ih =>
    intro s h
    cases s with
    | nil => rfl
    | cons b t =>
      rw [ensureLoop_cons]
      split
      · exact ih t (by simp at h; omega)
      · rename_i hne
        have hval : validRune (decodeRune (b :: t)).1 = true := by
          rcases decodeRune_spec b t with ⟨hr, hsz⟩ | ⟨hval, _⟩
          · exact absurd ⟨hr, hsz⟩ hne
          · exact hval
        rw [validUTF8_enc_append _ hval]
        have hsz := decodeRune_size_pos b t
        apply ih
        simp only [List.length_drop, List.length_cons] at h ⊢
        omega

/-- `EnsureValidUTF8` always returns valid UTF-8. -/
theorem ensure_valid (s : List Nat) : validUTF8 (EnsureValidUTF8 s) = true := by
  unfold EnsureValidUTF8
  split
  · rename_i hv
    exact hv
  · exact ensureLoop_valid s.length s (le_refl _)

/-- C7: confirmed.  For every buffer state and every `0 ≤ a ≤ b ≤ length`,
`GetTextRange(a, b)` returns without error (the internal boundary
adjustments are total and raise nothing), and the returned byte sequence is
valid UTF-8 — in particular it begins and ends on code-point boundaries. -/
theorem C7_getTextRange_total_and_valid (gb : GapBuffer) (a b : Int)
    (h0 : 0 ≤ a) (h1 : a ≤ b) (h2 : b ≤ gb.length) :
    ∃ out, GetTextRange gb a b = .ok out ∧ validUTF8 out = true := by
  unfold GetTextRange
  rw [if_neg (by omega)]
  exact ⟨_, rfl, ensure_valid _⟩

/-- Witness for C7 on a concrete buffer and range. -/
theorem C7_getTextRange_witness :
    ∃ out, GetTextRange New 0 0 = .ok out ∧ validUTF8 out = true :=
  C7_getTextRange_total_and_valid New 0 0 (by decide) (by decide) (by decide)

/-! In-order characterization of the tree insert, for C5 and C6. -/

namespace RBTree

variable {α : Type}

theorem inorder_blacken (t : RBTree α) : inorder (blacken t) = inorder t := by
  cases t <;> rfl

theorem inorder_plugFrame_congr {a b : RBTree α} (f : RBFrame α)
    (h : inorder a = inorder b) :
    inorder (plugFrame a f) = inorder (plugFrame b f) := by
  obtain ⟨fd, fc, fk, fv, fs⟩ := f
  cases fd <;> simp [plugFrame, inorder, h]

theorem inorder_plug_congr {a b : RBTree α} (p : List (RBFrame α))
    (h : inorder a = inorder b) : inorder (plug a p) = inorder (plug b p) := by
  induction p generalizing a b with
  | nil => exact h
  | cons f p ih => exact ih (inorder_plugFrame_congr f h)

/-- The insert fix-up loop never changes the in-order sequence of the fully
reassembled tree. -/
theorem fixIns_inorder : ∀ (n : Nat) (p : List (RBFrame α)) (x t : RBTree α),
    p.length ≤ n → fixIns x p = some t → inorder t = inorder (plug x p) := by
  intro n
  induction n with
  | zero =>
    intro p x t hl h
    have hp : p = [] := List.eq_nil_of_length_eq_zero (by omega)
    subst hp
    cases h
    simp [plug, inorder_blacken]
  | succ n ih =>
    intro p x t hl h
    match p with
    | [] =>
      cases h
      simp [plug, inorder_blacken]
    | pf :: rest =>
      obtain ⟨pfd, pfc, pfk, pfv, pfs⟩ := pf
      unfold fixIns at h
      split at h
      · rename_i hred
        match rest, h with
        | gf :: rest2, h =>
          obtain ⟨gfd, gfc, gfk, gfv, gfs⟩ := gf
          simp only at h
          rw [show plug x (⟨pfd, pfc, pfk, pfv, pfs⟩ ::
              ⟨gfd, gfc, gfk, gfv, gfs⟩ :: rest2) =
            plug (plugFrame (plugFrame x ⟨pfd, pfc, pfk, pfv, pfs⟩)
              ⟨gfd, gfc, gfk, gfv, gfs⟩) rest2 from rfl]
          cases gfd with
          | right =>
            match gfs, h with
            | .node .red ul uk uv ur, h =>
              have := ih rest2 _ t (by simp only [List.length_cons] at hl; omega) h
              rw [this]
              apply inorder_plug_congr
              cases pfd <;> simp [plugFrame, inorder]
            | .nil, h =>
              cases pfd with
              | left =>
                match x, h with
                | .node xc xl xk xv xr, h =>
                  cases h
                  rw [inorder_blacken]
                  apply inorder_plug_congr
                  simp [plugFrame, inorder]
              | right =>
                cases h
                rw [inorder_blacken]
                apply inorder_plug_congr
                simp [plugFrame, inorder]
            | .node .black ul uk uv ur, h =>
              cases pfd with
              | left =>
                match x, h with
                | .node xc xl xk xv xr, h =>
                  cases h
                  rw [inorder_blacken]
                  apply inorder_plug_congr
                  simp [plugFrame, inorder]
              | right =>
                cases h
                rw [inorder_blacken]
                apply inorder_plug_congr
                simp [plugFrame, inorder]
          | left =>
            match gfs, h with
            | .node .red ul uk uv ur, h =>
              have := ih rest2 _ t (by simp only [List.length_cons] at hl; omega) h
              rw [this]
              apply inorder_plug_congr
              cases pfd <;> simp [plugFrame, inorder]
            | .nil, h =>
              cases pfd with
              | right =>
                match x, h with
                | .node xc xl xk xv xr, h =>
                  cases h
                  rw [inorder_blacken]
                  apply inorder_plug_congr
                  simp [plugFrame, inorder]
              | left =>
                cases h
                rw [inorder_blacken]
                apply inorder_plug_congr
                simp [plugFrame, inorder]
            | .node .black ul uk uv ur, h =>
              cases pfd with
              | right =>
                match x, h with
                | .node xc xl xk xv xr, h =>
                  cases h
                  rw [inorder_blacken]
                  apply inorder_plug_congr
                  simp [plugFrame, inorder]
              | left =>
                cases h
                rw [inorder_blacken]
                apply inorder_plug_congr
                simp [plugFrame, inorder]
      · cases h
        rw [inorder_blacken]

/-- The descent loop plus the red leaf equals plain BST insertion. -/
theorem plug_insDescend (key : Int) (v : α) : ∀ (t : RBTree α) (p : List (RBFrame α)),
    plug (.node .red .nil key v .nil) (insDescend t key p) = plug (bstIns t key v) p := by
  intro t
  induction t with
  | nil => intro p; rfl
  | node c l k0 v0 r ihl ihr =>
    intro p
    unfold insDescend bstIns
    by_cases hk : key < k0
    · rw [if_pos hk, if_pos hk]
      exact ihl _
    · rw [if_neg hk, if_neg hk]
      exact ihr _

/-- `Insert` computes a tree whose in-order sequence is that of plain BST
insertion. -/
theorem insert_inorder (t : RBTree α) (key : Int) (v : α) (t2 : RBTree α)
    (h : insert t key v = some t2) : inorder t2 = inorder (bstIns t key v) := by
  unfold insert at h
  dsimp only at h
  split at h
  · rename_i hd
    cases h
    rw [inorder_blacken]
    have hp := plug_insDescend key v t []
    rw [hd] at hp
    simpa [plug] using congrArg inorder hp
  · rename_i f hd
    cases h
    have hp := plug_insDescend key v t []
    rw [hd] at hp
    simpa [plug] using congrArg inorder hp
  · rename_i hd1 hd2
    have h2 := fixIns_inorder (insDescend t key []).length (insDescend t key [])
      (.node .red .nil key v .nil) t2 (le_refl _) h
    rw [h2]
    have hp := plug_insDescend key v t []
    simpa [plug] using congrArg inorder hp

/-- BST insertion splits the in-order sequence and adds the new pair in the
middle. -/
theorem bstIns_split (t : RBTree α) (key : Int) (v : α) :
    ∃ l1 l2, inorder t = l1 ++ l2 ∧
      inorder (bstIns t key v) = l1 ++ (key, v) :: l2 := by
  induction t with
  | nil => exact ⟨[], [], rfl, rfl⟩
  | node c l k0 v0 r ihl ihr =>
    by_cases hk : key < k0
    · obtain ⟨l1, l2, e1, e2⟩ := ihl
      refine ⟨l1, l2 ++ (k0, v0) :: inorder r, ?_, ?_⟩
      · simp [inorder, e1]
      · simp [bstIns, if_pos hk, inorder, e2]
    · obtain ⟨l1, l2, e1, e2⟩ := ihr
      refine ⟨inorder l ++ (k0, v0) :: l1, l2, ?_, ?_⟩
      · simp [inorder, e1]
      · simp [bstIns, if_neg hk, inorder, e2]

/-- The sorted refinement of `bstIns_split`: the split point respects the
key order. -/
theorem bstIns_split_sorted (t : RBTree α) (key : Int) (v : α)
    (hs : List.Pairwise (fun a b => a.1 ≤ b.1) (inorder t)) :
    ∃ l1 l2, inorder t = l1 ++ l2 ∧
      inorder (bstIns t key v) = l1 ++ (key, v) :: l2 ∧
      (∀ q ∈ l1, q.1 ≤ key) ∧ (∀ q ∈ l2, key ≤ q.1) := by
  induction t with
  | nil => exact ⟨[], [], rfl, rfl, by simp, by simp⟩
  | node c l k0 v0 r ihl ihr =>
    rw [inorder, List.pairwise_append] at hs
    obtain ⟨hsl, hsr0, hcross⟩ := hs
    rw [List.pairwise_cons] at hsr0
    obtain ⟨hk0r, hsr⟩ := hsr0
    by_cases hk : key < k0
    · obtain ⟨l1, l2, e1, e2, b1, b2⟩ := ihl hsl
      refine ⟨l1, l2 ++ (k0, v0) :: inorder r, by simp [inorder, e1],
        by simp [bstIns, if_pos hk, inorder, e2], b1, ?_⟩
      intro q hq
      rcases List.mem_append.mp hq with hq | hq
      · exact b2 q hq
      · rcases List.mem_cons.mp hq with rfl | hq
        · simp only
          omega
        · have := hk0r q hq
          omega
    · obtain ⟨l1, l2, e1, e2, b1, b2⟩ := ihr hsr
      refine ⟨inorder l ++ (k0, v0) :: l1, l2, by simp [inorder, e1],
        by simp [bstIns, if_neg hk, inorder, e2], ?_, b2⟩
      intro q hq
      rcases List.mem_append.mp hq with hq | hq
      · have := hcross q hq (k0, v0) (List.mem_cons_self _ _)
        simp only at this
        omega
      · rcases List.mem_cons.mp hq with rfl | hq
        · simp only
          omega
        · exact b1 q hq

/-- BST insertion preserves sortedness of the in-order key sequence. -/
theorem bstIns_sorted (t : RBTree α) (key : Int) (v : α)
    (hs : List.Pairwise (fun a b => a.1 ≤ b.1) (inorder t)) :
    List.Pairwise (fun a b => a.1 ≤ b.1) (inorder (bstIns t key v)) := by
  obtain ⟨l1, l2, e1, e2, b1, b2⟩ := bstIns_split_sorted t key v hs
  rw [e2]
  rw [e1, List.pairwise_append] at hs
  obtain ⟨h1, h2, h12⟩ := hs
  rw [List.pairwise_append]
  refine ⟨h1, ?_, ?_⟩
  · rw [List.pairwise_cons]
    exact ⟨b2, h2⟩
  · intro a ha b hb
    rcases List.mem_cons.mp hb with rfl | hb
    · exact b1 a ha
    · exact h12 a ha b hb

/-- On a tree with sorted keys, `search` finds every present key. -/
theorem search_found (k : Int) : ∀ (t : RBTree α),
    List.Pairwise (fun a b => a.1 ≤ b.1) (inorder t) → k ∈ keyList t →
    ∃ w, search t k = some (k, w) := by
  intro t
  induction t with
  | nil => intro _ hm; simp [keyList, inorder] at hm
  | node c l k0 v0 r ihl ihr =>
    intro hs hm
    rw [inorder, List.pairwise_append] at hs
    obtain ⟨hsl, hsr0, hcross⟩ := hs
    rw [List.pairwise_cons] at hsr0
    obtain ⟨hk0r, hsr⟩ := hsr0
    unfold search
    by_cases he : k = k0
    · refine ⟨v0, ?_⟩
      rw [if_pos he, he]
    · rw [if_neg he]
      simp only [keyList, inorder, List.map_append, List.map_cons,
        List.mem_append, List.mem_cons] at hm
      by_cases hlt : k < k0
      · rw [if_pos hlt]
        apply ihl hsl
        rcases hm with hm | hm | hm
        · exact hm
        · exact absurd hm he
        · exfalso
          rcases List.mem_map.mp hm with ⟨q, hq, rfl⟩
          have := hk0r q hq
          omega
      · rw [if_neg hlt]
        apply ihr hsr
        rcases hm with hm | hm | hm
        · exfalso
          rcases List.mem_map.mp hm with ⟨q, hq, rfl⟩
          have := hcross q hq (k0, v0) (List.mem_cons_self _ _)
          simp only at this
          omega
        · exact absurd hm he
        · exact hm

end RBTree

/-- C6: confirmed.  The tree's insert has no uniqueness check: inserting a
key already present (here, into any tree with sorted keys) succeeds, grows
the node count by one, leaves at least two nodes with that key, and a
subsequent `search` (BST descent) still finds a node with that key. -/
theorem C6_insert_duplicate {α : Type} (t : RBTree α) (k : Int) (v : α)
    (t2 : RBTree α)
    (hs : List.Pairwise (fun a b => a.1 ≤ b.1) (RBTree.inorder t))
    (hm : k ∈ RBTree.keyList t) (h : RBTree.insert t k v = some t2) :
    (RBTree.inorder t2).length = (RBTree.inorder t).length + 1 ∧
      2 ≤ (RBTree.keyList t2).count k ∧
      ∃ w, RBTree.search t2 k = some (k, w) := by
  have hio := RBTree.insert_inorder t k v t2 h
  obtain ⟨l1, l2, e1, e2⟩ := RBTree.bstIns_split t k v
  refine ⟨?_, ?_, ?_⟩
  · rw [hio, e2, e1]
    simp only [List.length_append, List.length_cons]
    omega
  · have hcnt : (RBTree.keyList t2).count k = (RBTree.keyList t).count k + 1 := by
      unfold RBTree.keyList
      rw [hio, e2, e1]
      simp [List.count_append, List.count_cons_self]
      omega
    have hpos : 0 < (RBTree.keyList t).count k := List.count_pos_iff.mpr hm
    omega
  · apply RBTree.search_found
    · rw [hio]
      exact RBTree.bstIns_sorted t k v hs
    · have hcnt : (RBTree.keyList t2).count k = (RBTree.keyList t).count k + 1 := by
        unfold RBTree.keyList
        rw [hio, e2, e1]
        simp [List.count_append, List.count_cons_self]
        omega
      have hpos : 0 < (RBTree.keyList t).count k := List.count_pos_iff.mpr hm
      exact List.count_pos_iff.mp (by omega)

/-- Witness for C6: inserting the duplicate key 5 into the singleton tree. -/
theorem C6_insert_duplicate_witness :
    ∃ t2, RBTree.insert (RBTree.node .black .nil 5 () .nil) 5 () = some t2 ∧
      ((RBTree.inorder t2).length =
          (RBTree.inorder (RBTree.node .black .nil 5 () .nil)).length + 1 ∧
        2 ≤ (RBTree.keyList t2).count 5 ∧
        ∃ w, RBTree.search t2 5 = some (5, w)) := by
  refine ⟨RBTree.node .black .nil 5 () (RBTree.node .red .nil 5 () .nil), ?_, ?_⟩
  · decide
  · exact C6_insert_duplicate (RBTree.node .black .nil 5 () .nil) 5 () _
      (by decide) (by decide) (by decide)

/-- Every pair a successful tree insert adds beyond the old in-order
contents is exactly the inserted pair. -/
theorem insert_mem {α : Type} (t : RBTree α) (k : Int) (v : α) (t2 : RBTree α)
    (h : RBTree.insert t k v = some t2) :
    ∀ kv ∈ RBTree.inorder t2, kv ∈ RBTree.inorder t ∨ kv = (k, v) := by
  intro kv hkv
  rw [RBTree.insert_inorder t k v t2 h] at hkv
  obtain ⟨l1, l2, e1, e2⟩ := RBTree.bstIns_split t k v
  rw [e2] at hkv
  rw [e1]
  rcases List.mem_append.mp hkv with hkv | hkv
  · exact Or.inl (List.mem_append.mpr (Or.inl hkv))
  · rcases List.mem_cons.mp hkv with rfl | hkv
    · exact Or.inr rfl
    · exact Or.inl (List.mem_append.mpr (Or.inr hkv))

/-- Every chunk node the chunking loop creates is stored under a key equal
to its recorded `Pos`. -/
theorem insertChunks_pos_key (cs : Int) (text : List Nat) :
    ∀ fuel i tree gs out, insertChunks cs fuel text i tree gs = some out →
      ∀ kv ∈ RBTree.inorder out.1,
        kv ∈ RBTree.inorder tree ∨ kv.2.pos = kv.1 := by
  intro fuel
  induction fuel with
  | zero =>
    intro i tree gs out h kv hkv
    simp only [insertChunks] at h
    split at h
    · exact absurd h (by simp)
    · cases h
      exact Or.inl hkv
  | succ fuel ih =>
    intro i tree gs out h kv hkv
    simp only [insertChunks] at h
    split at h
    · split at h
      · exact absurd h (by simp)
      · rename_i endN hEnd
        split at h
        · exact absurd h (by simp)
        · split at h
          · exact absurd h (by simp)
          · rename_i tree2 hins
            rcases ih endN tree2 _ out h kv hkv with hmem | hpos
            · rcases insert_mem tree gs ⟨(text.drop i).take (endN - i), gs⟩
                tree2 hins kv hmem with hmem2 | rfl
              · exact Or.inl hmem2
              · exact Or.inr rfl
            · exact Or.inr hpos
    · cases h
      exact Or.inl hkv

/-- C5 (amended): when `insertAt` runs without relocating or expanding the
gap (`pos = gapStart`, text fits the gap), every chunk node it creates is
stored under a tree key equal to the chunk's `Pos` field; chunks already in
the tree are untouched.  (`moveGap`/`expandGap` reinsert chunks at shifted
keys without updating `Pos`, which is what the counterexample exhibits.) -/
theorem C5_insertAt_new_chunks_pos_eq_key (gb : GapBuffer) (pos : Int)
    (text : List Nat) (gb2 : GapBuffer) (hpos : pos = gb.gapStart)
    (hfit : (text.length : Int) ≤ gb.gapEnd - gb.gapStart)
    (h : InsertAt gb pos text = some (none, gb2)) :
    ∀ kv ∈ RBTree.inorder gb2.tree,
      kv ∈ RBTree.inorder gb.tree ∨ kv.2.pos = kv.1 := by
  unfold InsertAt at h
  split at h
  · simp at h
  · rw [if_neg (by simp [hpos])] at h
    simp only at h
    rw [if_neg (by omega)] at h
    simp only at h
    split at h
    · exact absurd h (by simp)
    · rename_i tree2 gs2 hins
      cases h
      intro kv hkv
      exact insertChunks_pos_key gb.chunkSize text _ 0 gb.tree gb.gapStart
        (tree2, gs2) hins kv hkv

/-- Witness for C5's amended theorem at a concrete insert. -/
theorem C5_insertAt_pos_witness :
    ∃ gb2, InsertAt New 0 [97, 98] = some (none, gb2) ∧
      ∀ kv ∈ RBTree.inorder gb2.tree,
        kv ∈ RBTree.inorder New.tree ∨ kv.2.pos = kv.1 := by
  have h : InsertAt New 0 [97, 98] =
      some (none, { tree := .node .black .nil 0 ⟨[97, 98], 0⟩ .nil,
                    gapStart := 2, gapEnd := 1048576, length := 2,
                    chunkSize := 4096 }) := by decide
  exact ⟨_, h,
    C5_insertAt_new_chunks_pos_eq_key New 0 [97, 98] _ (by decide) (by decide) h⟩

/-! Red-black invariant preservation for the tree operations (C4). -/

namespace RBTree

variable {α : Type}

/-- The balance predicate's color index is the root color. -/
theorem balanced_colorOf {t : RBTree α} {c : RBColor} {n : Nat}
    (h : Balanced t c n) : colorOf t = c := by
  cases h <;> rfl

/-- Blackening a balanced tree yields a balanced black-rooted tree. -/
theorem blacken_balanced {t : RBTree α} {c : RBColor} {n : Nat}
    (h : Balanced t c n) : ∃ m, Balanced (blacken t) .black m := by
  cases h with
  | nil => exact ⟨0, .nil⟩
  | red hl hr => exact ⟨_, .black hl hr⟩
  | black hl hr => exact ⟨_, .black hl hr⟩

theorem lastBlack_nil : lastBlack ([] : List (RBFrame α)) := by
  intro f hf
  simp at hf

theorem lastBlack_tail {f : RBFrame α} {p : List (RBFrame α)}
    (h : lastBlack (f :: p)) : lastBlack p := by
  intro g hg
  apply h
  cases p with
  | nil => simp at hg
  | cons a l =>
    rw [List.getLast?_cons_cons]
    exact hg

theorem lastBlack_cons {f : RBFrame α} {p : List (RBFrame α)}
    (hf : f.c = .black) (h : lastBlack p) : lastBlack (f :: p) := by
  intro g hg
  cases p with
  | nil =>
    rw [List.getLast?_singleton] at hg
    cases hg
    exact hf
  | cons a l =>
    rw [List.getLast?_cons_cons] at hg
    exact h g hg

theorem lastBlack_cons_ne {f : RBFrame α} {p : List (RBFrame α)}
    (hp : p ≠ []) (h : lastBlack p) : lastBlack (f :: p) := by
  intro g hg
  match p, hp with
  | a :: l, _ =>
    rw [List.getLast?_cons_cons] at hg
    exact h g hg

/-- Plugging a balanced subtree into a valid context yields a balanced tree
whose root color is that of the outermost frame. -/
theorem plug_balanced : ∀ (p : List (RBFrame α)) (n : Nat) (cp : RBColor)
    (t : RBTree α) (ct : RBColor), CtxOk p n cp → Balanced t ct n →
    Compat cp ct →
    ∃ m cr, Balanced (plug t p) cr m ∧
      (∀ f, p.getLast? = some f → cr = f.c) ∧ (p = [] → cr = ct) := by
  intro p
  induction p with
  | nil =>
    intro n cp t ct _ hb _
    exact ⟨n, ct, hb, by intro f hf; simp at hf, fun _ => rfl⟩
  | cons f p ih =>
    intro n cp t ct hc hb hcompat
    obtain ⟨fd, fc, fk, fv, fs⟩ := f
    cases hc with
    | black hsib hrest =>
      have hnode : Balanced (plugFrame t ⟨fd, .black, fk, fv, fs⟩) .black (n + 1) := by
        cases fd with
        | left => exact .black hb hsib
        | right => exact .black hsib hb
      obtain ⟨m, cr, hbal, hlastf, hnil⟩ := ih _ _ _ _ hrest hnode (fun _ => rfl)
      refine ⟨m, cr, hbal, ?_, fun hcontra => absurd hcontra (List.cons_ne_nil _ _)⟩
      intro g hg
      cases p with
      | nil =>
        rw [List.getLast?_singleton] at hg
        cases hg
        exact hnil rfl
      | cons a l =>
        rw [List.getLast?_cons_cons] at hg
        exact hlastf g hg
    | red hsib hrest =>
      have hb2 : Balanced t .black n := hcompat rfl ▸ hb
      have hnode : Balanced (plugFrame t ⟨fd, .red, fk, fv, fs⟩) .red n := by
        cases fd with
        | left => exact .red hb2 hsib
        | right => exact .red hsib hb2
      obtain ⟨m, cr, hbal, hlastf, hnil⟩ := ih _ _ _ _ hrest hnode (fun h2 => nomatch h2)
      refine ⟨m, cr, hbal, ?_, fun hcontra => absurd hcontra (List.cons_ne_nil _ _)⟩
      intro g hg
      cases p with
      | nil =>
        rw [List.getLast?_singleton] at hg
        cases hg
        exact hnil rfl
      | cons a l =>
        rw [List.getLast?_cons_cons] at hg
        exact hlastf g hg

/-- Plugging into a context whose outermost frame is black (or which is
empty and receives a black root) yields a valid black-rooted tree. -/
theorem plug_balanced_black {p : List (RBFrame α)} {n : Nat} {cp : RBColor}
    {t : RBTree α} {ct : RBColor} (hc : CtxOk p n cp) (hb : Balanced t ct n)
    (hcompat : Compat cp ct) (hlast : lastBlack p)
    (hroot : p = [] → ct = .black) :
    ∃ m, Balanced (plug t p) .black m := by
  obtain ⟨m, cr, hbal, hlastf, hnil⟩ := plug_balanced p n cp t ct hc hb hcompat
  cases p with
  | nil =>
    have : cr = .black := (hnil rfl).trans (hroot rfl)
    exact ⟨m, this ▸ hbal⟩
  | cons a l =>
    have hg := List.getLast?_eq_getLast (a :: l) (by simp)
    have h1 : cr = ((a :: l).getLast (by simp)).c := hlastf _ hg
    have h2 : ((a :: l).getLast (by simp)).c = .black := hlast _ hg
    exact ⟨m, (h1.trans h2) ▸ hbal⟩

/-- Plug and blacken: the standard exit of both fix-up loops. -/
theorem plug_blacken_balanced {p : List (RBFrame α)} {n : Nat} {cp : RBColor}
    {t : RBTree α} {ct : RBColor} (hc : CtxOk p n cp) (hb : Balanced t ct n)
    (hcompat : Compat cp ct) : ∃ m, Balanced (blacken (plug t p)) .black m := by
  obtain ⟨m, cr, hbal, _, _⟩ := plug_balanced p n cp t ct hc hb hcompat
  exact blacken_balanced hbal

/-- Reassembly distributes over path concatenation. -/
theorem plug_append (x : RBTree α) : ∀ (q r : List (RBFrame α)),
    plug x (q ++ r) = plug (plug x q) r := by
  intro q
  induction q generalizing x with
  | nil => intro r; rfl
  | cons f q ih => intro r; exact ih (plugFrame x f) r

/-- The in-order sequence of a reassembled tree splits around the hole. -/
theorem inorder_plug : ∀ (p : List (RBFrame α)) (x : RBTree α),
    inorder (plug x p) = pathLeft p ++ inorder x ++ pathRight p := by
  intro p
  induction p with
  | nil => intro x; simp [plug, pathLeft, pathRight]
  | cons f p ih =>
    intro x
    obtain ⟨fd, fc, fk, fv, fs⟩ := f
    cases fd with
    | left =>
      show inorder (plug (plugFrame x _) p) = _
      rw [ih]
      simp [plugFrame, inorder, pathLeft, pathRight]
    | right =>
      show inorder (plug (plugFrame x _) p) = _
      rw [ih]
      simp [plugFrame, inorder, pathLeft, pathRight]

/-- The delete search reassembles to the original tree. -/
theorem findZ_plug : ∀ (t : RBTree α) (key : Int) (acc : List (RBFrame α))
    (zc : RBColor) (zl : RBTree α) (zk : Int) (zv : α) (zr : RBTree α)
    (p : List (RBFrame α)), findZ t key acc = some (zc, zl, zk, zv, zr, p) →
    plug (.node zc zl zk zv zr) p = plug t acc := by
  intro t
  induction t with
  | nil => intro key acc zc zl zk zv zr p h; exact absurd h (by simp [findZ])
  | node c l k v r ihl ihr =>
    intro key acc zc zl zk zv zr p h
    unfold findZ at h
    split at h
    · cases h
      rfl
    · split at h
      · exact ihr key _ _ _ _ _ _ _ h
      · exact ihl key _ _ _ _ _ _ _ h

/-- The minimum search reassembles to the tree it started from. -/
theorem minPath_plug : ∀ (t : RBTree α) (acc : List (RBFrame α))
    (yc : RBColor) (yk : Int) (yv : α) (yr : RBTree α)
    (q : List (RBFrame α)), minPath t acc = some (yc, yk, yv, yr, q) →
    plug (.node yc .nil yk yv yr) q = plug t acc := by
  intro t
  induction t with
  | nil => intro acc yc yk yv yr q h; exact absurd h (by simp [minPath])
  | node c l k v r ihl ihr =>
    intro acc yc yk yv yr q h
    cases l with
    | nil =>
      unfold minPath at h
      cases h
      rfl
    | node lc ll lk lv lr =>
      unfold minPath at h
      exact ihl _ _ _ _ _ _ h

/-- The minimum search only pushes left frames: no in-order prefix. -/
theorem minPath_pathLeft : ∀ (t : RBTree α) (acc : List (RBFrame α))
    (yc : RBColor) (yk : Int) (yv : α) (yr : RBTree α)
    (q : List (RBFrame α)), minPath t acc = some (yc, yk, yv, yr, q) →
    pathLeft q = pathLeft acc := by
  intro t
  induction t with
  | nil => intro acc yc yk yv yr q h; exact absurd h (by simp [minPath])
  | node c l k v r ihl ihr =>
    intro acc yc yk yv yr q h
    cases l with
    | nil =>
      unfold minPath at h
      cases h
      rfl
    | node lc ll lk lv lr =>
      unfold minPath at h
      rw [ihl _ _ _ _ _ _ h]
      rfl

/-- The accumulator of the minimum search is a suffix of the result path. -/
theorem minPath_shift_gen : ∀ (t : RBTree α) (acc acc2 : List (RBFrame α))
    (yc : RBColor) (yk : Int) (yv : α) (yr : RBTree α) (q : List (RBFrame α)),
    minPath t acc = some (yc, yk, yv, yr, q) →
    minPath t (acc ++ acc2) = some (yc, yk, yv, yr, q ++ acc2) := by
  intro t
  induction t with
  | nil => intro acc acc2 yc yk yv yr q h; exact absurd h (by simp [minPath])
  | node c l k v r ihl ihr =>
    intro acc acc2 yc yk yv yr q h
    cases l with
    | nil =>
      unfold minPath at h ⊢
      cases h
      rfl
    | node lc ll lk lv lr =>
      unfold minPath at h ⊢
      exact ihl _ _ _ _ _ _ _ h

/-- Shifting the empty accumulator of a minimum search. -/
theorem minPath_shift {t : RBTree α} (acc : List (RBFrame α)) {yc : RBColor}
    {yk : Int} {yv : α} {yr : RBTree α} {q : List (RBFrame α)}
    (h : minPath t [] = some (yc, yk, yv, yr, q)) :
    minPath t acc = some (yc, yk, yv, yr, q ++ acc) := by
  simpa using minPath_shift_gen t [] acc yc yk yv yr q h

/-- The insert descent of a valid tree builds a valid context for the new
red leaf (black-height 0), with a black outermost frame. -/
theorem insDescend_ctx : ∀ (t : RBTree α) (key : Int) (acc : List (RBFrame α))
    (ct : RBColor) (h : Nat) (cp : RBColor), Balanced t ct h →
    CtxOk acc h cp → Compat cp ct → lastBlack acc →
    (acc = [] → ct = .black) →
    ∃ cp2, CtxOk (insDescend t key acc) 0 cp2 ∧
      lastBlack (insDescend t key acc) := by
  intro t
  induction t with
  | nil =>
    intro key acc ct h cp hb hctx _ hlast _
    cases hb
    exact ⟨cp, hctx, hlast⟩
  | node c l k v r ihl ihr =>
    intro key acc ct h cp hb hctx hcompat hlast hroot
    unfold insDescend
    cases hb with
    | red hl hr =>
      have hne : acc ≠ [] := fun he => RBColor.noConfusion (hroot he)
      have hcp : cp = .black := by
        cases cp with
        | black => rfl
        | red => exact RBColor.noConfusion (hcompat rfl)
      subst hcp
      by_cases hk : key < k
      · rw [if_pos hk]
        exact ihl key (⟨.left, .red, k, v, r⟩ :: acc) _ _ _ hl (.red hr hctx)
          (fun _ => rfl) (lastBlack_cons_ne hne hlast) (fun he => nomatch he)
      · rw [if_neg hk]
        exact ihr key (⟨.right, .red, k, v, l⟩ :: acc) _ _ _ hr (.red hl hctx)
          (fun _ => rfl) (lastBlack_cons_ne hne hlast) (fun he => nomatch he)
    | black hl hr =>
      by_cases hk : key < k
      · rw [if_pos hk]
        exact ihl key (⟨.left, .black, k, v, r⟩ :: acc) _ _ _ hl (.black hr hctx)
          (fun h2 => nomatch h2) (lastBlack_cons rfl hlast) (fun he => nomatch he)
      · rw [if_neg hk]
        exact ihr key (⟨.right, .black, k, v, l⟩ :: acc) _ _ _ hr (.black hl hctx)
          (fun h2 => nomatch h2) (lastBlack_cons rfl hlast) (fun he => nomatch he)

/-- The delete search of a valid tree finds a balanced node in a valid
context. -/
theorem findZ_ctx : ∀ (t : RBTree α) (key : Int) (acc : List (RBFrame α))
    (ct : RBColor) (h : Nat) (cp : RBColor) (zc : RBColor) (zl : RBTree α)
    (zk : Int) (zv : α) (zr : RBTree α) (p : List (RBFrame α)),
    Balanced t ct h → CtxOk acc h cp → Compat cp ct → lastBlack acc →
    (acc = [] → ct = .black) →
    findZ t key acc = some (zc, zl, zk, zv, zr, p) →
    ∃ hz cpz, Balanced (.node zc zl zk zv zr) zc hz ∧ CtxOk p hz cpz ∧
      Compat cpz zc ∧ lastBlack p ∧ (p = [] → zc = .black) := by
  intro t
  induction t with
  | nil =>
    intro key acc ct h cp zc zl zk zv zr p _ _ _ _ _ hf
    exact absurd hf (by simp [findZ])
  | node c l k v r ihl ihr =>
    intro key acc ct h cp zc zl zk zv zr p hb hctx hcompat hlast hroot hf
    unfold findZ at hf
    cases hb with
    | red hl2 hr2 =>
      have hne : acc ≠ [] := fun he => RBColor.noConfusion (hroot he)
      have hcp : cp = .black := by
        cases cp with
        | black => rfl
        | red => exact RBColor.noConfusion (hcompat rfl)
      subst hcp
      split at hf
      · cases hf
        refine ⟨h, .black, .red hl2 hr2, hctx, ?_, hlast, hroot⟩
        intro h2
        exact RBColor.noConfusion h2
      · split at hf
        · refine ihr key (⟨.right, .red, k, v, l⟩ :: acc) _ _ _ _ _ _ _ _ _ hr2
            (.red hl2 hctx) (fun _ => rfl) (lastBlack_cons_ne hne hlast) ?_ hf
          intro he
          exact List.noConfusion he
        · refine ihl key (⟨.left, .red, k, v, r⟩ :: acc) _ _ _ _ _ _ _ _ _ hl2
            (.red hr2 hctx) (fun _ => rfl) (lastBlack_cons_ne hne hlast) ?_ hf
          intro he
          exact List.noConfusion he
    | black hl2 hr2 =>
      split at hf
      · cases hf
        exact ⟨_, cp, .black hl2 hr2, hctx, fun _ => rfl, hlast, fun _ => rfl⟩
      · split at hf
        · refine ihr key (⟨.right, .black, k, v, l⟩ :: acc) _ _ _ _ _ _ _ _ _ hr2
            (.black hl2 hctx) ?_ (lastBlack_cons rfl hlast) ?_ hf
          · intro h2
            exact RBColor.noConfusion h2
          · intro he
            exact List.noConfusion he
        · refine ihl key (⟨.left, .black, k, v, r⟩ :: acc) _ _ _ _ _ _ _ _ _ hl2
            (.black hr2 hctx) ?_ (lastBlack_cons rfl hlast) ?_ hf
          · intro h2
            exact RBColor.noConfusion h2
          · intro he
            exact List.noConfusion he

/-- The minimum search of a valid tree finds a balanced leftmost node in a
valid context. -/
theorem minPath_ctx : ∀ (t : RBTree α) (acc : List (RBFrame α))
    (ct : RBColor) (h : Nat) (cp : RBColor) (yc : RBColor) (yk : Int) (yv : α)
    (yr : RBTree α) (q : List (RBFrame α)),
    Balanced t ct h → CtxOk acc h cp → Compat cp ct → lastBlack acc →
    (acc = [] → ct = .black) →
    minPath t acc = some (yc, yk, yv, yr, q) →
    ∃ hy cpy, Balanced (.node yc .nil yk yv yr) yc hy ∧ CtxOk q hy cpy ∧
      Compat cpy yc ∧ lastBlack q ∧ (q = [] → yc = .black) := by
  intro t
  induction t with
  | nil =>
    intro acc ct h cp yc yk yv yr q _ _ _ _ _ hf
    exact absurd hf (by simp [minPath])
  | node c l k v r ihl ihr =>
    intro acc ct h cp yc yk yv yr q hb hctx hcompat hlast hroot hf
    cases l with
    | nil =>
      unfold minPath at hf
      cases hf
      cases hb with
      | red hl2 hr2 => exact ⟨h, cp, .red hl2 hr2, hctx, hcompat, hlast, hroot⟩
      | black hl2 hr2 => exact ⟨_, cp, .black hl2 hr2, hctx, hcompat, hlast, hroot⟩
    | node lc ll lk lv lr =>
      unfold minPath at hf
      cases hb with
      | red hl2 hr2 =>
        have hne : acc ≠ [] := fun he => RBColor.noConfusion (hroot he)
        have hcp : cp = .black := by
          cases cp with
          | black => rfl
          | red => exact RBColor.noConfusion (hcompat rfl)
        subst hcp
        refine ihl _ _ _ _ _ _ _ _ _ hl2 (.red hr2 hctx) (fun _ => rfl)
          (lastBlack_cons_ne hne hlast) ?_ hf
        intro he
        exact List.noConfusion he
      | black hl2 hr2 =>
        refine ihl _ _ _ _ _ _ _ _ _ hl2 (.black hr2 hctx) ?_
          (lastBlack_cons rfl hlast) ?_ hf
        · intro h2
          exact RBColor.noConfusion h2
        · intro he
          exact List.noConfusion he

/-- The insert fix-up loop, run on a red-rooted balanced subtree in a valid
context, produces a valid black-rooted tree. -/
theorem fixIns_balanced : ∀ (fuel : Nat) (p : List (RBFrame α)) (x : RBTree α)
    (n : Nat) (cp : RBColor) (t : RBTree α), p.length ≤ fuel →
    Balanced x .red n → CtxOk p n cp → fixIns x p = some t →
    ∃ m, Balanced t .black m := by
  intro fuel
  induction fuel with
  | zero =>
    intro p x n cp t hl hx _ h
    have hp : p = [] := List.eq_nil_of_length_eq_zero (by omega)
    subst hp
    cases h
    exact blacken_balanced hx
  | succ fuel ih =>
    intro p x n cp t hl hx hctx h
    match p, hctx, h with
    | [], _, h =>
      cases h
      exact blacken_balanced hx
    | pf :: rest, hctx, h =>
      obtain ⟨pfd, pfc, pfk, pfv, pfs⟩ := pf
      unfold fixIns at h
      split at h
      · rename_i hred
        have hpfc : pfc = .red := hred
        subst hpfc
        cases hctx with
        | red hsib hctx2 =>
          match rest, hctx2, h with
          | gf :: rest2, hctx2, h =>
            obtain ⟨gfd, gfc, gfk, gfv, gfs⟩ := gf
            cases hctx2 with
            | black hgsib hctx3 =>
              simp only at h
              cases gfd with
              | right =>
                match gfs, hgsib, h with
                | .node .red ul uk uv ur, hgsib, h =>
                  cases hgsib with
                  | red hul hur =>
                    refine ih rest2 _ (n + 1) _ t
                      (by simp only [List.length_cons] at hl; omega) ?_ hctx3 h
                    cases pfd with
                    | left => exact .red (.black hul hur) (.black hx hsib)
                    | right => exact .red (.black hul hur) (.black hsib hx)
                | .nil, hgsib, h =>
                  cases hgsib
                  cases pfd with
                  | left =>
                    cases hx with
                    | red hxl hxr =>
                      cases h
                      exact plug_blacken_balanced hctx3
                        (.black (.red .nil hxl) (.red hxr hsib)) (fun _ => rfl)
                  | right =>
                    cases h
                    exact plug_blacken_balanced hctx3
                      (.black (.red .nil hsib) hx) (fun _ => rfl)
                | .node .black ul uk uv ur, hgsib, h =>
                  cases hgsib with
                  | black hul hur =>
                    cases pfd with
                    | left =>
                      cases hx with
                      | red hxl hxr =>
                        cases h
                        exact plug_blacken_balanced hctx3
                          (.black (.red (.black hul hur) hxl) (.red hxr hsib))
                          (fun _ => rfl)
                    | right =>
                      cases h
                      exact plug_blacken_balanced hctx3
                        (.black (.red (.black hul hur) hsib) hx) (fun _ => rfl)
              | left =>
                match gfs, hgsib, h with
                | .node .red ul uk uv ur, hgsib, h =>
                  cases hgsib with
                  | red hul hur =>
                    refine ih rest2 _ (n + 1) _ t
                      (by simp only [List.length_cons] at hl; omega) ?_ hctx3 h
                    cases pfd with
                    | left => exact .red (.black hx hsib) (.black hul hur)
                    | right => exact .red (.black hsib hx) (.black hul hur)
                | .nil, hgsib, h =>
                  cases hgsib
                  cases pfd with
                  | right =>
                    cases hx with
                    | red hxl hxr =>
                      cases h
                      exact plug_blacken_balanced hctx3
                        (.black (.red hsib hxl) (.red hxr .nil)) (fun _ => rfl)
                  | left =>
                    cases h
                    exact plug_blacken_balanced hctx3
                      (.black hx (.red hsib .nil)) (fun _ => rfl)
                | .node .black ul uk uv ur, hgsib, h =>
                  cases hgsib with
                  | black hul hur =>
                    cases pfd with
                    | right =>
                      cases hx with
                      | red hxl hxr =>
                        cases h
                        exact plug_blacken_balanced hctx3
                          (.black (.red hsib hxl) (.red hxr (.black hul hur)))
                          (fun _ => rfl)
                    | left =>
                      cases h
                      exact plug_blacken_balanced hctx3
                        (.black hx (.red hsib (.black hul hur))) (fun _ => rfl)
      · rename_i hnotred
        have hpfc : pfc = .black := by
          cases pfc with
          | red => exact absurd rfl hnotred
          | black => rfl
        subst hpfc
        cases hctx with
        | black hsib hctx2 =>
          cases h
          refine plug_blacken_balanced (CtxOk.black hsib hctx2) hx ?_
          intro h2
          exact RBColor.noConfusion h2

/-- `Insert` on a valid tree produces a valid tree. -/
theorem insert_balanced (t : RBTree α) (key : Int) (v : α) (t2 : RBTree α)
    (N : Nat) (hb : Balanced t .black N) (h : insert t key v = some t2) :
    ∃ m, Balanced t2 .black m := by
  obtain ⟨cp2, hctx, hlast⟩ := insDescend_ctx t key [] .black N .black hb
    .nil (fun _ => rfl) lastBlack_nil (fun _ => rfl)
  unfold insert at h
  dsimp only at h
  split at h
  · cases h
    exact ⟨1, .black .nil .nil⟩
  · rename_i f hd
    cases h
    rw [hd] at hctx hlast
    obtain ⟨fd, fc, fk, fv, fs⟩ := f
    have hfc : fc = .black := hlast _ (List.getLast?_singleton _)
    subst hfc
    cases hctx with
    | black hsib hctx2 =>
      cases fd with
      | left => exact ⟨1, .black (.red .nil .nil) hsib⟩
      | right => exact ⟨1, .black hsib (.red .nil .nil)⟩
  · exact fixIns_balanced (insDescend t key []).length (insDescend t key [])
      (.node .red .nil key v .nil) 0 cp2 t2 (le_refl _) (.red .nil .nil) hctx h

/-- Unfolding one reassembly step. -/
theorem plug_cons (x : RBTree α) (f : RBFrame α) (p : List (RBFrame α)) :
    plug x (f :: p) = plug (plugFrame x f) p := rfl

/-- One dispatch arm of the delete fix-up never changes the in-order
sequence of the fully reassembled tree. -/
theorem fixDelDispatchL_inorder
    (recur : RBTree α → List (RBFrame α) → Option (RBTree α))
    (hrec : ∀ x2 p2 t2, recur x2 p2 = some t2 → inorder t2 = inorder (plug x2 p2))
    (x : RBTree α) (pc : RBColor) (pk : Int) (pv : α) (sl : RBTree α) (sk : Int)
    (sv : α) (sr : RBTree α) (rest : List (RBFrame α)) (t : RBTree α)
    (h : fixDelDispatchL recur x pc pk pv sl sk sv sr rest = some t) :
    inorder t =
      inorder (plug (.node pc x pk pv (.node .black sl sk sv sr)) rest) := by
  unfold fixDelDispatchL at h
  split at h
  · rw [hrec _ _ _ h]
    apply inorder_plug_congr
    simp [inorder]
  · split at h
    · match sl, h with
      | .node slc a lk lv b, h =>
        cases h
        rw [inorder_blacken]
        apply inorder_plug_congr
        simp [inorder]
    · cases h
      rw [inorder_blacken]
      apply inorder_plug_congr
      simp [inorder, inorder_blacken]

/-- Mirror image of `fixDelDispatchL_inorder`. -/
theorem fixDelDispatchR_inorder
    (recur : RBTree α → List (RBFrame α) → Option (RBTree α))
    (hrec : ∀ x2 p2 t2, recur x2 p2 = some t2 → inorder t2 = inorder (plug x2 p2))
    (x : RBTree α) (pc : RBColor) (pk : Int) (pv : α) (sl : RBTree α) (sk : Int)
    (sv : α) (sr : RBTree α) (rest : List (RBFrame α)) (t : RBTree α)
    (h : fixDelDispatchR recur x pc pk pv sl sk sv sr rest = some t) :
    inorder t =
      inorder (plug (.node pc (.node .black sl sk sv sr) pk pv x) rest) := by
  unfold fixDelDispatchR at h
  split at h
  · rw [hrec _ _ _ h]
    apply inorder_plug_congr
    simp [inorder]
  · split at h
    · match sr, h with
      | .node src c rk rv d, h =>
        cases h
        rw [inorder_blacken]
        apply inorder_plug_congr
        simp [inorder]
    · cases h
      rw [inorder_blacken]
      apply inorder_plug_congr
      simp [inorder, inorder_blacken]

/-- The delete fix-up loop never changes the in-order sequence of the fully
reassembled tree. -/
theorem fixDel_inorder : ∀ (fuel : Nat) (x : RBTree α) (p : List (RBFrame α))
    (t : RBTree α), fixDel fuel x p = some t → inorder t = inorder (plug x p) := by
  intro fuel
  induction fuel with
  | zero =>
    intro x p t h
    exact absurd h (by simp [fixDel])
  | succ fuel ih =>
    intro x p t h
    match p, h with
    | [], h =>
      cases h
      simp [plug, inorder_blacken]
    | pf :: rest, h =>
      obtain ⟨pfd, pfc, pfk, pfv, pfs⟩ := pf
      unfold fixDel at h
      split at h
      · cases h
        exact inorder_plug_congr _ (inorder_blacken x)
      · cases pfd with
        | left =>
          match pfs, h with
          | .node .red sl sk sv sr, h =>
            match sl, h with
            | .node slc sl2 sk2 sv2 sr2, h =>
              rw [fixDelDispatchL_inorder (fixDel fuel)
                (fun x2 p2 t2 => ih x2 p2 t2) _ _ _ _ _ _ _ _ _ _ h]
              simp only [plug_cons]
              apply inorder_plug_congr
              simp [plugFrame, inorder]
          | .node .black sl sk sv sr, h =>
            rw [fixDelDispatchL_inorder (fixDel fuel)
              (fun x2 p2 t2 => ih x2 p2 t2) _ _ _ _ _ _ _ _ _ _ h]
            simp only [plug_cons]
            apply inorder_plug_congr
            simp [plugFrame, inorder]
        | right =>
          match pfs, h with
          | .node .red sl sk sv sr, h =>
            match sr, h with
            | .node src sl2 sk2 sv2 sr2, h =>
              rw [fixDelDispatchR_inorder (fixDel fuel)
                (fun x2 p2 t2 => ih x2 p2 t2) _ _ _ _ _ _ _ _ _ _ h]
              simp only [plug_cons]
              apply inorder_plug_congr
              simp [plugFrame, inorder]
          | .node .black sl sk sv sr, h =>
            rw [fixDelDispatchR_inorder (fixDel fuel)
              (fun x2 p2 t2 => ih x2 p2 t2) _ _ _ _ _ _ _ _ _ _ h]
            simp only [plug_cons]
            apply inorder_plug_congr
            simp [plugFrame, inorder]

/-- `Delete` either leaves the tree alone (absent key) or removes exactly
one pair from the in-order sequence. -/
theorem delete_inorder : ∀ (t : RBTree α) (key : Int) (t2 : RBTree α),
    delete t key = some t2 →
    t2 = t ∨ ∃ l1 kv l2, inorder t = l1 ++ kv :: l2 ∧ inorder t2 = l1 ++ l2 := by
  intro t key t2 h
  unfold delete at h
  split at h
  · cases h
    exact Or.inl rfl
  · rename_i zc zl zk zv zr p hfz
    have hplug := findZ_plug t key [] zc zl zk zv zr p hfz
    have hdecomp : inorder t =
        pathLeft p ++ (inorder zl ++ (zk, zv) :: inorder zr) ++ pathRight p := by
      have := congrArg inorder hplug
      rw [inorder_plug] at this
      simpa [plug, inorder] using this.symm
    refine Or.inr ?_
    rcases zl with _ | ⟨lc, ll, lk, lv, lr⟩
    · dsimp only at h
      have ht2 : inorder t2 = pathLeft p ++ inorder zr ++ pathRight p := by
        split at h
        · rw [fixDel_inorder _ _ _ _ h, inorder_plug]
        · cases h
          rw [inorder_plug]
      refine ⟨pathLeft p, (zk, zv), inorder zr ++ pathRight p, ?_, ?_⟩
      · simp [hdecomp, inorder]
      · simp [ht2]
    · rcases zr with _ | ⟨rc, rl, rk, rv, rr⟩
      · dsimp only at h
        have ht2 : inorder t2 =
            pathLeft p ++ inorder (.node lc ll lk lv lr) ++ pathRight p := by
          split at h
          · rw [fixDel_inorder _ _ _ _ h, inorder_plug]
          · cases h
            rw [inorder_plug]
        refine ⟨pathLeft p ++ inorder (.node lc ll lk lv lr), (zk, zv),
          pathRight p, ?_, ?_⟩
        · simp [hdecomp, inorder]
        · simp [ht2]
      · dsimp only at h
        split at h
        · cases h
        · rename_i yc yk yv yr q hmp
          have hyplug := minPath_plug _ _ _ _ _ _ _ hmp
          have hql := minPath_pathLeft _ _ _ _ _ _ _ hmp
          have hql0 : pathLeft q = [] := by rw [hql]; rfl
          have hzr : inorder (.node rc rl rk rv rr) =
              (yk, yv) :: (inorder yr ++ pathRight q) := by
            have := congrArg inorder hyplug
            rw [inorder_plug] at this
            simpa [plug, inorder, hql0] using this.symm
          have hplugyr : inorder (plug yr (q ++ (⟨.right, zc, yk, yv,
              .node lc ll lk lv lr⟩ :: p))) =
              pathLeft p ++ inorder (.node lc ll lk lv lr) ++
                ((yk, yv) :: (inorder yr ++ pathRight q)) ++ pathRight p := by
            rw [plug_append]
            rw [plug_cons, inorder_plug]
            simp [plugFrame, inorder, inorder_plug, hql0]
          have ht2 : inorder t2 =
              pathLeft p ++ inorder (.node lc ll lk lv lr) ++
                ((yk, yv) :: (inorder yr ++ pathRight q)) ++ pathRight p := by
            split at h
            · rw [fixDel_inorder _ _ _ _ h, hplugyr]
            · cases h
              rw [hplugyr]
          refine ⟨pathLeft p ++ inorder (.node lc ll lk lv lr), (zk, zv),
            ((yk, yv) :: (inorder yr ++ pathRight q)) ++ pathRight p, ?_, ?_⟩
          · simp [hdecomp, hzr]
          · simp [ht2]

/-- One dispatch arm of the delete fix-up, under the loop invariant,
produces a valid black-rooted tree.  `x` is the deficient subtree (one
black short of its context), the four components describe the effective
sibling's children, both balanced at `x`'s height. -/
theorem fixDelDispatchL_balanced
    (recur : RBTree α → List (RBFrame α) → Option (RBTree α))
    (hrec : ∀ x2 p2 n2 cp2 t2, AlmostBal x2 n2 → CtxOk p2 (n2 + 1) cp2 →
      lastBlack p2 → recur x2 p2 = some t2 → ∃ m, Balanced t2 .black m)
    (x : RBTree α) (pc : RBColor) (pk : Int) (pv : α) (sl : RBTree α)
    (sk : Int) (sv : α) (sr : RBTree α) (rest : List (RBFrame α))
    (t : RBTree α) (n : Nat) (csl csr : RBColor)
    (hx : Balanced x .black n) (hsl : Balanced sl csl n)
    (hsr : Balanced sr csr n)
    (hctx : (pc = .black ∧ ∃ cp2, CtxOk rest (n + 2) cp2) ∨
      (pc = .red ∧ CtxOk rest (n + 1) .black))
    (hlast : lastBlack rest)
    (h : fixDelDispatchL recur x pc pk pv sl sk sv sr rest = some t) :
    ∃ m, Balanced t .black m := by
  unfold fixDelDispatchL at h
  split at h
  · rename_i hbb
    obtain ⟨hb1, hb2⟩ := hbb
    have hc1 : csl = .black := (balanced_colorOf hsl).symm.trans hb1
    have hc2 : csr = .black := (balanced_colorOf hsr).symm.trans hb2
    subst hc1
    subst hc2
    rcases hctx with ⟨rfl, cp2, hrest⟩ | ⟨rfl, hrest⟩
    · exact hrec _ rest (n + 1) cp2 t (.bal (.black hx (.red hsl hsr)))
        hrest hlast h
    · exact hrec _ rest n .black t (.redv hx (.red hsl hsr)) hrest hlast h
  · rename_i hnbb
    split at h
    · rename_i hb2
      have hslred : csl = .red := by
        cases csl with
        | red => rfl
        | black => exact absurd ⟨balanced_colorOf hsl, hb2⟩ hnbb
      subst hslred
      cases hsl with
      | red ha hb =>
        cases h
        rcases hctx with ⟨rfl, cp2, hrest⟩ | ⟨rfl, hrest⟩
        · exact plug_blacken_balanced hrest
            (.black (.black hx ha) (.black hb hsr)) (fun _ => rfl)
        · refine plug_blacken_balanced hrest
            (.red (.black hx ha) (.black hb hsr)) ?_
          intro h2
          exact RBColor.noConfusion h2
    · rename_i hnb2
      have hsrred : csr = .red := by
        cases csr with
        | red => rfl
        | black => exact absurd (balanced_colorOf hsr) hnb2
      subst hsrred
      cases hsr with
      | red hc hd =>
        cases h
        rcases hctx with ⟨rfl, cp2, hrest⟩ | ⟨rfl, hrest⟩
        · exact plug_blacken_balanced hrest
            (.black (.black hx hsl) (.black hc hd)) (fun _ => rfl)
        · refine plug_blacken_balanced hrest
            (.red (.black hx hsl) (.black hc hd)) ?_
          intro h2
          exact RBColor.noConfusion h2

/-- Mirror image of `fixDelDispatchL_balanced`. -/
theorem fixDelDispatchR_balanced
    (recur : RBTree α → List (RBFrame α) → Option (RBTree α))
    (hrec : ∀ x2 p2 n2 cp2 t2, AlmostBal x2 n2 → CtxOk p2 (n2 + 1) cp2 →
      lastBlack p2 → recur x2 p2 = some t2 → ∃ m, Balanced t2 .black m)
    (x : RBTree α) (pc : RBColor) (pk : Int) (pv : α) (sl : RBTree α)
    (sk : Int) (sv : α) (sr : RBTree α) (rest : List (RBFrame α))
    (t : RBTree α) (n : Nat) (csl csr : RBColor)
    (hx : Balanced x .black n) (hsl : Balanced sl csl n)
    (hsr : Balanced sr csr n)
    (hctx : (pc = .black ∧ ∃ cp2, CtxOk rest (n + 2) cp2) ∨
      (pc = .red ∧ CtxOk rest (n + 1) .black))
    (hlast : lastBlack rest)
    (h : fixDelDispatchR recur x pc pk pv sl sk sv sr rest = some t) :
    ∃ m, Balanced t .black m := by
  unfold fixDelDispatchR at h
  split at h
  · rename_i hbb
    obtain ⟨hb2, hb1⟩ := hbb
    have hc1 : csl = .black := (balanced_colorOf hsl).symm.trans hb1
    have hc2 : csr = .black := (balanced_colorOf hsr).symm.trans hb2
    subst hc1
    subst hc2
    rcases hctx with ⟨rfl, cp2, hrest⟩ | ⟨rfl, hrest⟩
    · exact hrec _ rest (n + 1) cp2 t (.bal (.black (.red hsl hsr) hx))
        hrest hlast h
    · exact hrec _ rest n .black t (.redv (.red hsl hsr) hx) hrest hlast h
  · rename_i hnbb
    split at h
    · rename_i hb1
      have hsrred : csr = .red := by
        cases csr with
        | red => rfl
        | black => exact absurd ⟨(balanced_colorOf hsr).trans rfl, hb1⟩ hnbb
      subst hsrred
      cases hsr with
      | red hc hd =>
        cases h
        rcases hctx with ⟨rfl, cp2, hrest⟩ | ⟨rfl, hrest⟩
        · exact plug_blacken_balanced hrest
            (.black (.black hsl hc) (.black hd hx)) (fun _ => rfl)
        · refine plug_blacken_balanced hrest
            (.red (.black hsl hc) (.black hd hx)) ?_
          intro h2
          exact RBColor.noConfusion h2
    · rename_i hnb1
      have hslred : csl = .red := by
        cases csl with
        | red => rfl
        | black => exact absurd (balanced_colorOf hsl) hnb1
      subst hslred
      cases hsl with
      | red ha hb =>
        cases h
        rcases hctx with ⟨rfl, cp2, hrest⟩ | ⟨rfl, hrest⟩
        · exact plug_blacken_balanced hrest
            (.black (.black ha hb) (.black hsr hx)) (fun _ => rfl)
        · refine plug_blacken_balanced hrest
            (.red (.black ha hb) (.black hsr hx)) ?_
          intro h2
          exact RBColor.noConfusion h2

/-- The delete fix-up loop, run under its invariant (a subtree one black
short of its valid context, outermost frame black), produces a valid
black-rooted tree. -/
theorem fixDel_balanced : ∀ (fuel : Nat) (x : RBTree α) (p : List (RBFrame α))
    (n : Nat) (cp : RBColor) (t : RBTree α), AlmostBal x n →
    CtxOk p (n + 1) cp → lastBlack p → fixDel fuel x p = some t →
    ∃ m, Balanced t .black m := by
  intro fuel
  induction fuel with
  | zero =>
    intro x p n cp t _ _ _ h
    exact absurd h (by simp [fixDel])
  | succ fuel ih =>
    intro x p n cp t hx hctx hlast h
    match p, hctx, hlast, h with
    | [], _, _, h =>
      cases h
      cases hx with
      | bal hb => exact blacken_balanced hb
      | redv hl hr => exact ⟨_, .black hl hr⟩
    | pf :: rest, hctx, hlast, h =>
      obtain ⟨pfd, pfc, pfk, pfv, pfs⟩ := pf
      unfold fixDel at h
      split at h
      · rename_i hxred
        cases h
        have hbx : Balanced (blacken x) .black (n + 1) := by
          cases hx with
          | bal hb =>
            have hco := (balanced_colorOf hb).symm.trans hxred
            subst hco
            cases hb with
            | red hl hr => exact .black hl hr
          | redv hl hr => exact .black hl hr
        exact plug_balanced_black hctx hbx (fun _ => rfl) hlast (fun _ => rfl)
      · rename_i hxnred
        have hxb : Balanced x .black n := by
          cases hx with
          | bal hb =>
            cases hb with
            | nil => exact .nil
            | red hl hr => exact absurd rfl hxnred
            | black hl hr => exact .black hl hr
          | redv hl hr => exact absurd rfl hxnred
        cases pfd with
        | left =>
          match pfs, hctx, h with
          | .node .red sl sk sv sr, hctx, h =>
            cases hctx with
            | black hsib hrest =>
              cases hsib with
              | red hsl hsr =>
                match sl, hsl, h with
                | .node .black sl2 sk2 sv2 sr2, hsl, h =>
                  cases hsl with
                  | black hsl2 hsr2 =>
                    exact fixDelDispatchL_balanced (fixDel fuel)
                      (fun x2 p2 n2 cp2 t2 => ih x2 p2 n2 cp2 t2) x .red pfk pfv
                      sl2 sk2 sv2 sr2 (⟨.left, .black, sk, sv, sr⟩ :: rest) t n
                      _ _ hxb hsl2 hsr2 (Or.inr ⟨rfl, .black hsr hrest⟩)
                      (lastBlack_cons rfl (lastBlack_tail hlast)) h
            | red hsib hrest => cases hsib
          | .node .black sl sk sv sr, hctx, h =>
            cases hctx with
            | black hsib hrest =>
              cases hsib with
              | black hsl hsr =>
                exact fixDelDispatchL_balanced (fixDel fuel)
                  (fun x2 p2 n2 cp2 t2 => ih x2 p2 n2 cp2 t2) x .black pfk pfv
                  sl sk sv sr rest t n _ _ hxb hsl hsr
                  (Or.inl ⟨rfl, _, hrest⟩) (lastBlack_tail hlast) h
            | red hsib hrest =>
              cases hsib with
              | black hsl hsr =>
                exact fixDelDispatchL_balanced (fixDel fuel)
                  (fun x2 p2 n2 cp2 t2 => ih x2 p2 n2 cp2 t2) x .red pfk pfv
                  sl sk sv sr rest t n _ _ hxb hsl hsr
                  (Or.inr ⟨rfl, hrest⟩) (lastBlack_tail hlast) h
        | right =>
          match pfs, hctx, h with
          | .node .red sl sk sv sr, hctx, h =>
            cases hctx with
            | black hsib hrest =>
              cases hsib with
              | red hsl hsr =>
                match sr, hsr, h with
                | .node .black sl2 sk2 sv2 sr2, hsr, h =>
                  cases hsr with
                  | black hsl2 hsr2 =>
                    exact fixDelDispatchR_balanced (fixDel fuel)
                      (fun x2 p2 n2 cp2 t2 => ih x2 p2 n2 cp2 t2) x .red pfk pfv
                      sl2 sk2 sv2 sr2 (⟨.right, .black, sk, sv, sl⟩ :: rest) t n
                      _ _ hxb hsl2 hsr2 (Or.inr ⟨rfl, .black hsl hrest⟩)
                      (lastBlack_cons rfl (lastBlack_tail hlast)) h
            | red hsib hrest => cases hsib
          | .node .black sl sk sv sr, hctx, h =>
            cases hctx with
            | black hsib hrest =>
              cases hsib with
              | black hsl hsr =>
                exact fixDelDispatchR_balanced (fixDel fuel)
                  (fun x2 p2 n2 cp2 t2 => ih x2 p2 n2 cp2 t2) x .black pfk pfv
                  sl sk sv sr rest t n _ _ hxb hsl hsr
                  (Or.inl ⟨rfl, _, hrest⟩) (lastBlack_tail hlast) h
            | red hsib hrest =>
              cases hsib with
              | black hsl hsr =>
                exact fixDelDispatchR_balanced (fixDel fuel)
                  (fun x2 p2 n2 cp2 t2 => ih x2 p2 n2 cp2 t2) x .red pfk pfv
                  sl sk sv sr rest t n _ _ hxb hsl hsr
                  (Or.inr ⟨rfl, hrest⟩) (lastBlack_tail hlast) h

/-- `Delete` on a valid tree produces a valid tree. -/
theorem delete_balanced (t : RBTree α) (key : Int) (t2 : RBTree α) (N : Nat)
    (hb : Balanced t .black N) (h : delete t key = some t2) :
    ∃ m, Balanced t2 .black m := by
  unfold delete at h
  split at h
  · cases h
    exact ⟨N, hb⟩
  · rename_i zc zl zk zv zr p hfz
    obtain ⟨hz, cpz, hzb, hctx, hcompat, hlast, hroot⟩ :=
      findZ_ctx t key [] .black N .black zc zl zk zv zr p hb .nil
        (fun _ => rfl) lastBlack_nil (fun _ => rfl) hfz
    rcases zl with _ | ⟨lc, ll, lk, lv, lr⟩
    · dsimp only at h
      cases hzb with
      | red hl2 hr2 =>
        cases hl2
        rw [if_neg (fun hh => RBColor.noConfusion hh)] at h
        cases h
        exact plug_balanced_black hctx hr2 (fun _ => rfl) hlast (fun _ => rfl)
      | black hl2 hr2 =>
        cases hl2
        rw [if_pos rfl] at h
        exact fixDel_balanced (fixDelFuel p) zr p 0 cpz t2 (.bal hr2) hctx
          hlast h
    · rcases zr with _ | ⟨rc, rl, rk, rv, rr⟩
      · dsimp only at h
        cases hzb with
        | red hl2 hr2 =>
          cases hr2
          cases hl2
        | black hl2 hr2 =>
          cases hr2
          rw [if_pos rfl] at h
          exact fixDel_balanced (fixDelFuel p) _ p 0 cpz t2 (.bal hl2) hctx
            hlast h
      · dsimp only at h
        split at h
        · cases h
        · rename_i yc yk yv yr q hmp
          have hmp2 := minPath_shift
            (⟨.right, zc, yk, yv, .node lc ll lk lv lr⟩ :: p) hmp
          cases hzb with
          | red hl2 hr2 =>
            have hcpz : cpz = .black := by
              cases cpz with
              | black => rfl
              | red => exact RBColor.noConfusion (hcompat rfl)
            subst hcpz
            have hne : p ≠ [] := fun he => RBColor.noConfusion (hroot he)
            obtain ⟨hy, cpy, hyb, hctxy, hcompaty, hlasty, hrooty⟩ :=
              minPath_ctx (.node rc rl rk rv rr)
                (⟨.right, .red, yk, yv, .node lc ll lk lv lr⟩ :: p) .black hz
                .red yc yk yv yr _ hr2 (.red hl2 hctx) (fun _ => rfl)
                (lastBlack_cons_ne hne hlast) (fun he => List.noConfusion he)
                hmp2
            split at h
            · rename_i hyc
              subst hyc
              cases hyb with
              | black hy1 hy2 =>
                cases hy1
                exact fixDel_balanced _ yr _ 0 cpy t2 (.bal hy2) hctxy hlasty h
            · rename_i hyc
              have hycr : yc = .red := by
                cases yc with
                | red => rfl
                | black => exact absurd rfl hyc
              subst hycr
              cases hyb with
              | red hy1 hy2 =>
                cases hy1
                cases h
                exact plug_balanced_black hctxy hy2 (fun _ => rfl) hlasty
                  (fun _ => rfl)
          | black hl2 hr2 =>
            obtain ⟨hy, cpy, hyb, hctxy, hcompaty, hlasty, hrooty⟩ :=
              minPath_ctx (.node rc rl rk rv rr)
                (⟨.right, .black, yk, yv, .node lc ll lk lv lr⟩ :: p) _ _
                .black yc yk yv yr _ hr2 (.black hl2 hctx)
                (fun h2 => RBColor.noConfusion h2) (lastBlack_cons rfl hlast)
                (fun he => List.noConfusion he) hmp2
            split at h
            · rename_i hyc
              subst hyc
              cases hyb with
              | black hy1 hy2 =>
                cases hy1
                exact fixDel_balanced _ yr _ 0 cpy t2 (.bal hy2) hctxy hlasty h
            · rename_i hyc
              have hycr : yc = .red := by
                cases yc with
                | red => rfl
                | black => exact absurd rfl hyc
              subst hycr
              cases hyb with
              | red hy1 hy2 =>
                cases hy1
                cases h
                exact plug_balanced_black hctxy hy2 (fun _ => rfl) hlasty
                  (fun _ => rfl)

/-- Sorted with no duplicate keys is strictly sorted. -/
theorem pairwise_lt_of_le_nodup {l : List (Int × α)}
    (hs : List.Pairwise (fun a b => a.1 ≤ b.1) l)
    (hnd : (l.map (fun kv => kv.1)).Nodup) :
    List.Pairwise (fun a b => a.1 < b.1) l := by
  have hnd2 : List.Pairwise (fun a b => a.1 ≠ b.1) l := by
    have h3 : List.Pairwise Ne (l.map (fun kv => kv.1)) := hnd
    rw [List.pairwise_map] at h3
    exact h3
  exact (hs.and hnd2).imp (fun h2 => lt_of_le_of_ne h2.1 h2.2)

end RBTree

/-- C4 (amended): after any sequence of tree `insert` and `delete`
operations starting from the empty tree, every accepted call succeeding,
the tree satisfies all red-black invariants — the root is black, no red
node has a red child, and every root-to-sentinel path crosses the same
number of black nodes (the `Balanced` predicate) — and the in-order key
sequence is non-decreasing.  It is strictly ascending only when the keys
are pairwise distinct: `insert` performs no uniqueness check, so duplicate
keys make the traversal non-strict (see the counterexample). -/
theorem C4_rb_invariants_preserved {α : Type} (t : RBTree α)
    (h : RBTree.RBReachable t) :
    (∃ n, RBTree.Balanced t .black n) ∧
      List.Pairwise (fun a b => a.1 ≤ b.1) (RBTree.inorder t) ∧
      ((RBTree.keyList t).Nodup →
        List.Pairwise (fun a b => a.1 < b.1) (RBTree.inorder t)) := by
  induction h with
  | init => exact ⟨⟨0, .nil⟩, List.Pairwise.nil, fun _ => List.Pairwise.nil⟩
  | ins ht hins ih =>
    obtain ⟨⟨n, hbal⟩, hs, _⟩ := ih
    have hbal2 := RBTree.insert_balanced _ _ _ _ n hbal hins
    have hs2 := RBTree.insert_inorder _ _ _ _ hins ▸
      RBTree.bstIns_sorted _ _ _ hs
    exact ⟨hbal2, hs2, fun hnd => RBTree.pairwise_lt_of_le_nodup hs2 hnd⟩
  | del ht hdel ih =>
    rename_i t1 k1 t3
    obtain ⟨⟨n, hbal⟩, hs, _⟩ := ih
    have hbal2 := RBTree.delete_balanced _ _ _ n hbal hdel
    have hs2 : List.Pairwise (fun a b => a.1 ≤ b.1) (RBTree.inorder t3) := by
      rcases RBTree.delete_inorder _ _ _ hdel with heq | ⟨l1, kv, l2, e1, e2⟩
      · rw [heq]
        exact hs
      · rw [e2]
        rw [e1] at hs
        refine List.Pairwise.sublist ?_ hs
        exact List.Sublist.append_left (List.sublist_cons_self _ _) l1
    exact ⟨hbal2, hs2, fun hnd => RBTree.pairwise_lt_of_le_nodup hs2 hnd⟩

/-- Witness for C4's amended theorem at a concretely reached tree. -/
theorem C4_rb_invariants_witness :
    (∃ n, RBTree.Balanced
        (RBTree.node .black .nil 7 () .nil : RBTree Unit) .black n) ∧
      List.Pairwise (fun a b => a.1 ≤ b.1)
        (RBTree.inorder (RBTree.node .black .nil 7 () .nil)) ∧
      ((RBTree.keyList (RBTree.node .black .nil 7 () .nil)).Nodup →
        List.Pairwise (fun a b => a.1 < b.1)
          (RBTree.inorder (RBTree.node .black .nil 7 () .nil))) :=
  C4_rb_invariants_preserved _ (RBTree.RBReachable.ins .init
    (show RBTree.insert .nil 7 () =
      some (RBTree.node .black .nil 7 () .nil) by decide))

/-- Witness for C8: a concrete rejected call leaves the concrete buffer. -/
theorem C8_validation_failure_witness :
    InsertAt New (-1) [97] = some (some "position out of range", New) ∧
      New = New :=
  ⟨by decide, (C8_validation_failure_leaves_state New).1 (-1) [97]
    "position out of range" New (by decide)⟩

end GapBuf
